import Mathlib

/-
Shallow embedding of src/apps/common/kernel/convolution.h.

Buffers are modelled as total maps from linear indices to values:
an image buffer of int32_t is a map Nat -> Int, a kernel buffer of
uint32_t is a map Nat -> Nat.  Machine arithmetic is modelled with
Nat/Int plus explicit reduction mod 2^32 where the C code's 32-bit
registers matter: the weight accumulator reduces mod 2^32 at every
step exactly like the uint32_t variable, and the int32_t weighted-sum
accumulator is modelled by accumulating exactly in Int and reducing
once at the store (reduction mod 2^32 is a ring homomorphism, so this
yields the same 32-bit pattern as the step-wise wrap of the C code).
The C statement out[...] = sum / weight converts the int32_t sum to
uint32_t (usual arithmetic conversions), divides in unsigned
arithmetic and converts the quotient back to int32_t; storeVal models
exactly this.

C loops are modelled as folds over the explicit list of visited
indices: a loop for (i = start; i < bound; i += step) visits the list
strided start bound step, and a loop for (j = a; j < b; j++) visits
rangeFrom a b.  The while (id < boundary_x) id += numThreads loop of
conv2d_parallel is modelled by the fuel-bounded advAux (boundary_x
steps of +numThreads, numThreads >= 1, always suffice).  Running a
kernel "over all lane ids 0..numThreads-1" is modelled by runLanes,
which applies the lanes sequentially; the lanes of one call write
disjoint locations, so this agrees with any parallel order.
-/

namespace Convolution

abbrev Buf : Type := Nat → Int
abbrev KBuf : Type := Nat → Nat

/-- A single store out[idx] = v into an output buffer. -/
def writeBuf (b : Buf) (idx : Nat) (v : Int) : Buf :=
  fun n => if n = idx then v else b n

theorem writeBuf_self (b : Buf) (idx : Nat) (v : Int) : writeBuf b idx v idx = v := by
  simp [writeBuf]

theorem writeBuf_ne (b : Buf) (idx : Nat) (v : Int) (n : Nat) (h : n ≠ idx) :
    writeBuf b idx v n = b n := by
  simp [writeBuf, h]

/-- The 32-bit pattern of an int32_t value seen as uint32_t. -/
def bits32 (z : Int) : Nat := (z % (2 ^ 32 : Int)).toNat

/-- Reinterpret a 32-bit pattern as a (two's complement) int32_t value. -/
def int32ofBits (n : Nat) : Int :=
  if n % 2 ^ 32 < 2 ^ 31 then ((n % 2 ^ 32 : Nat) : Int)
  else ((n % 2 ^ 32 : Nat) : Int) - 2 ^ 32

/-- The int32_t value whose 32-bit pattern is that of the exact integer z. -/
def asInt32 (z : Int) : Int := int32ofBits (bits32 z)

/-- C's out[...] = sum / weight with sum : int32_t and weight : uint32_t:
the sum is converted to uint32_t, the division is unsigned, and the
quotient is converted back to int32_t for the store. -/
def storeVal (s : Int) (w : Nat) : Int := int32ofBits (bits32 s / w)

/-- The uint32_t weight accumulator: weight += k[i] over i < len, wrapping. -/
def convWeight (k : KBuf) (len : Nat) : Nat :=
  (List.range len).foldl (fun w i => (w + k i) % 2 ^ 32) 0

theorem convWeight_fold (k : KBuf) :
    ∀ (l : List Nat) (a : Nat),
      l.foldl (fun w i => (w + k i) % 2 ^ 32) (a % 2 ^ 32) = (a + (l.map k).sum) % 2 ^ 32 := by
  intro l
  induction l with
  | nil => intro a; simp
  | cons i is ih =>
    intro a
    simp only [List.foldl_cons, List.map_cons, List.sum_cons]
    have h1 : (a % 2 ^ 32 + k i) % 2 ^ 32 = (a + k i) % 2 ^ 32 := Nat.mod_add_mod a (2 ^ 32) (k i)
    rw [h1, ih (a + k i), Nat.add_assoc]

theorem convWeight_eq (k : KBuf) (len : Nat) :
    convWeight k len = ((List.range len).map k).sum % 2 ^ 32 := by
  have h0 : (0 : Nat) = 0 % 2 ^ 32 := by decide
  unfold convWeight
  rw [h0, convWeight_fold k (List.range len) 0, Nat.zero_add]

/-- The list of indices visited by for (j = a; j < b; j++). -/
def rangeFrom (a b : Nat) : List Nat := (List.range (b - a)).map (fun t => a + t)

theorem mem_rangeFrom (a b x : Nat) : x ∈ rangeFrom a b ↔ a ≤ x ∧ x < b := by
  simp only [rangeFrom, List.mem_map, List.mem_range]
  constructor
  · rintro ⟨t, ht, rfl⟩; omega
  · intro h; exact ⟨x - a, by omega, by omega⟩

theorem rangeFrom_nodup (a b : Nat) : (rangeFrom a b).Nodup := by
  refine List.Nodup.map ?_ (List.nodup_range (b - a))
  intro s t h
  exact Nat.add_left_cancel h

theorem rangeFrom_cons (a b : Nat) (h : a < b) : rangeFrom a b = a :: rangeFrom (a + 1) b := by
  unfold rangeFrom
  have hb : b - a = (b - (a + 1)) + 1 := by omega
  rw [hb, List.range_succ_eq_map, List.map_cons, List.map_map]
  refine congrArg (fun l => (a + 0) :: l) ?_
  apply List.map_congr_left
  intro t _
  simp [Function.comp]
  omega

theorem rangeFrom_nil (a b : Nat) (h : b ≤ a) : rangeFrom a b = [] := by
  unfold rangeFrom
  have : b - a = 0 := by omega
  rw [this, List.range_zero, List.map_nil]

theorem rangeFrom_append_aux :
    ∀ (fuel a b c : Nat), c - a ≤ fuel → a ≤ c → c ≤ b →
      rangeFrom a b = rangeFrom a c ++ rangeFrom c b := by
  intro fuel
  induction fuel with
  | zero =>
    intro a b c hf h1 h2
    have hac : a = c := by omega
    subst hac
    rw [rangeFrom_nil a a (Nat.le_refl a), List.nil_append]
  | succ m ih =>
    intro a b c hf h1 h2
    rcases Nat.eq_or_lt_of_le h1 with hac | hac
    · subst hac
      rw [rangeFrom_nil a a (Nat.le_refl a), List.nil_append]
    · rw [rangeFrom_cons a b (by omega), rangeFrom_cons a c hac,
        ih (a + 1) b c (by omega) (by omega) h2]
      rfl

theorem rangeFrom_append (a b c : Nat) (h1 : a ≤ c) (h2 : c ≤ b) :
    rangeFrom a b = rangeFrom a c ++ rangeFrom c b :=
  rangeFrom_append_aux (c - a) a b c (Nat.le_refl (c - a)) h1 h2

/-- The list of indices visited by for (i = start; i < bound; i += step),
for step >= 1 (with step = 0 the C loop does not terminate). -/
def strided (start bound step : Nat) : List Nat :=
  (List.range ((bound - start + step - 1) / step)).map (fun t => start + t * step)

theorem mem_strided (start bound step x : Nat) (hstep : 1 ≤ step) :
    x ∈ strided start bound step ↔ ∃ t, x = start + t * step ∧ x < bound := by
  simp only [strided, List.mem_map, List.mem_range]
  constructor
  · rintro ⟨t, ht, rfl⟩
    refine ⟨t, rfl, ?_⟩
    have h2 : t + 1 ≤ (bound - start + step - 1) / step := ht
    have h3 : (t + 1) * step ≤ bound - start + step - 1 :=
      (Nat.le_div_iff_mul_le hstep).mp h2
    have h4 : (t + 1) * step = t * step + step := by ring
    omega
  · rintro ⟨t, rfl, hx⟩
    refine ⟨t, ?_, rfl⟩
    have h4 : (t + 1) * step = t * step + step := by ring
    have h3 : (t + 1) * step ≤ bound - start + step - 1 := by omega
    have h2 : t + 1 ≤ (bound - start + step - 1) / step :=
      (Nat.le_div_iff_mul_le hstep).mpr h3
    omega

theorem strided_nodup (start bound step : Nat) (hstep : 1 ≤ step) :
    (strided start bound step).Nodup := by
  refine List.Nodup.map ?_ (List.nodup_range _)
  intro s t h
  have hs : s * step = t * step := Nat.add_left_cancel h
  exact Nat.eq_of_mul_eq_mul_right hstep hs

/-- Fuel-bounded model of while (id < bx) id += nT.  With nT >= 1,
fuel bx always suffices, see advanceId_spec. -/
def advAux (nT bx : Nat) : Nat → Nat → Nat
  | 0, id => id
  | fuel + 1, id => if id < bx then advAux nT bx fuel (id + nT) else id

def advanceId (nT bx id : Nat) : Nat := advAux nT bx bx id

theorem advAux_spec (nT bx : Nat) (_hnT : 1 ≤ nT) :
    ∀ (fuel id : Nat), bx ≤ id + fuel * nT →
      ∃ c, advAux nT bx fuel id = id + c * nT ∧ bx ≤ advAux nT bx fuel id ∧
        (advAux nT bx fuel id = id ∨ advAux nT bx fuel id < bx + nT) := by
  intro fuel
  induction fuel with
  | zero =>
    intro id hfe
    refine ⟨0, by simp [advAux], ?_, Or.inl rfl⟩
    simp only [advAux]
    omega
  | succ m ih =>
    intro id hfe
    by_cases hid : id < bx
    · have hstep : advAux nT bx (m + 1) id = advAux nT bx m (id + nT) := by
        simp [advAux, hid]
      have hfe2 : bx ≤ (id + nT) + m * nT := by
        have : (m + 1) * nT = m * nT + nT := by ring
        omega
      obtain ⟨c, hc, hge, hmin⟩ := ih (id + nT) hfe2
      refine ⟨c + 1, ?_, by omega, ?_⟩
      · rw [hstep, hc]; ring
      · rcases hmin with h | h
        · right; omega
        · right; omega
    · have hstep : advAux nT bx (m + 1) id = id := by
        simp [advAux, hid]
      exact ⟨0, by omega, by omega, Or.inl hstep⟩

theorem advanceId_spec (nT bx id : Nat) (hnT : 1 ≤ nT) :
    ∃ c, advanceId nT bx id = id + c * nT ∧ bx ≤ advanceId nT bx id ∧
      (advanceId nT bx id = id ∨ advanceId nT bx id < bx + nT) := by
  have hfe : bx ≤ id + bx * nT := by
    have : bx ≤ bx * nT := Nat.le_mul_of_pos_right bx hnT
    omega
  exact advAux_spec nT bx hnT bx id hfe

/-- The doubly nested write loop shared by all four convolution kernels:
for each column i of cols and each row j of rows, write v i j at
linear index pos i j of the output buffer. -/
def convLoop (cols rows : List Nat) (pos : Nat → Nat → Nat) (v : Nat → Nat → Int)
    (out : Buf) : Buf :=
  cols.foldl (fun o i => rows.foldl (fun o j => writeBuf o (pos i j) (v i j)) o) out

/-- Running one kernel over all lane ids 0 .. nT-1. -/
def runLanes (f : Nat → Buf → Buf) (nT : Nat) (out : Buf) : Buf :=
  (List.range nT).foldl (fun o id => f id o) out

theorem foldl_preserve (F : Nat → Buf → Buf) (P : Nat → Prop) (n : Nat) :
    ∀ (l : List Nat) (b : Buf),
      (∀ i ∈ l, ∀ o : Buf, ¬ P i → F i o n = o n) →
      (∀ i ∈ l, ¬ P i) →
      (l.foldl (fun o i => F i o) b) n = b n := by
  intro l
  induction l with
  | nil => intro b _ _; rfl
  | cons i is ih =>
    intro b hF hn
    simp only [List.foldl_cons]
    rw [ih (F i b) (fun j hj => hF j (List.mem_cons_of_mem i hj))
      (fun j hj => hn j (List.mem_cons_of_mem i hj))]
    exact hF i (List.mem_cons_self i is) b (hn i (List.mem_cons_self i is))

theorem foldl_owner (F : Nat → Buf → Buf) (P : Nat → Prop) (n : Nat) (i0 : Nat) (v : Int) :
    ∀ (l : List Nat) (b : Buf),
      (∀ j ∈ l, ∀ o : Buf, ¬ P j → F j o n = o n) →
      (∀ o : Buf, F i0 o n = v) →
      i0 ∈ l →
      (∀ j ∈ l, P j → j = i0) →
      (l.foldl (fun o j => F j o) b) n = v := by
  intro l
  induction l with
  | nil => intro b _ _ hmem _; exact absurd hmem (List.not_mem_nil i0)
  | cons j js ih =>
    intro b hF hFi hmem huniq
    simp only [List.foldl_cons]
    by_cases hj : i0 ∈ js
    · exact ih (F j b) (fun x hx => hF x (List.mem_cons_of_mem j hx)) hFi hj
        (fun x hx => huniq x (List.mem_cons_of_mem j hx))
    · have hji : j = i0 := by
        rcases List.mem_cons.mp hmem with h | h
        · exact h.symm
        · exact absurd h hj
      subst hji
      have hnone : ∀ x ∈ js, ¬ P x := by
        intro x hx hPx
        have hxj : x = j := huniq x (List.mem_cons_of_mem j hx) hPx
        exact hj (hxj ▸ hx)
      rw [foldl_preserve F P n js (F j b)
        (fun x hx => hF x (List.mem_cons_of_mem j hx)) hnone]
      exact hFi b

theorem convLoop_preserve (cols rows : List Nat) (pos : Nat → Nat → Nat)
    (v : Nat → Nat → Int) (out : Buf) (n : Nat)
    (h : ∀ i ∈ cols, ∀ j ∈ rows, pos i j ≠ n) :
    convLoop cols rows pos v out n = out n := by
  unfold convLoop
  refine foldl_preserve (fun i o => rows.foldl (fun o j => writeBuf o (pos i j) (v i j)) o)
    (fun i => ∃ j ∈ rows, pos i j = n) n cols out ?_ ?_
  · intro i _ o hP
    refine foldl_preserve (fun j o => writeBuf o (pos i j) (v i j)) (fun j => pos i j = n) n
      rows o ?_ ?_
    · intro j _ o2 hne
      exact writeBuf_ne o2 (pos i j) (v i j) n (fun he => hne he.symm)
    · intro j hj hpj
      exact hP ⟨j, hj, hpj⟩
  · intro i hi hP
    obtain ⟨j, hj, hpj⟩ := hP
    exact h i hi j hj hpj

theorem convLoop_write (cols rows : List Nat) (pos : Nat → Nat → Nat)
    (v : Nat → Nat → Int) (out : Buf) (i0 j0 : Nat)
    (hi : i0 ∈ cols) (hj : j0 ∈ rows)
    (hu : ∀ i ∈ cols, ∀ j ∈ rows, pos i j = pos i0 j0 → i = i0 ∧ j = j0) :
    convLoop cols rows pos v out (pos i0 j0) = v i0 j0 := by
  unfold convLoop
  refine foldl_owner (fun i o => rows.foldl (fun o j => writeBuf o (pos i j) (v i j)) o)
    (fun i => ∃ j ∈ rows, pos i j = pos i0 j0) (pos i0 j0) i0 (v i0 j0) cols out ?_ ?_ hi ?_
  · intro i _ o hP
    refine foldl_preserve (fun j o => writeBuf o (pos i j) (v i j))
      (fun j => pos i j = pos i0 j0) (pos i0 j0) rows o ?_ ?_
    · intro j _ o2 hne
      exact writeBuf_ne o2 (pos i j) (v i j) (pos i0 j0) (fun he => hne he.symm)
    · intro j hj2 hpj
      exact hP ⟨j, hj2, hpj⟩
  · intro o
    refine foldl_owner (fun j o => writeBuf o (pos i0 j) (v i0 j))
      (fun j => pos i0 j = pos i0 j0) (pos i0 j0) j0 (v i0 j0) rows o ?_ ?_ hj ?_
    · intro j _ o2 hne
      exact writeBuf_ne o2 (pos i0 j) (v i0 j) (pos i0 j0) (fun he => hne he.symm)
    · intro o2
      exact writeBuf_self o2 (pos i0 j0) (v i0 j0)
    · intro j hj2 hpj
      exact (hu i0 hi j hj2 hpj).2
  · intro i hi2 hP
    obtain ⟨j, hj2, hpj⟩ := hP
    exact (hu i hi2 j hj2 hpj).1

theorem runLanes_preserve (f : Nat → Buf → Buf) (nT : Nat) (out : Buf) (n : Nat)
    (h : ∀ id ∈ List.range nT, ∀ o : Buf, f id o n = o n) :
    runLanes f nT out n = out n := by
  unfold runLanes
  exact foldl_preserve f (fun _ => False) n (List.range nT) out
    (fun id hid o _ => h id hid o) (fun _ _ hf => hf)

theorem runLanes_owner (f : Nat → Buf → Buf) (nT : Nat) (out : Buf) (n : Nat)
    (id0 : Nat) (v : Int)
    (hothers : ∀ id ∈ List.range nT, ∀ o : Buf, id ≠ id0 → f id o n = o n)
    (hid0 : id0 ∈ List.range nT)
    (hwrite : ∀ o : Buf, f id0 o n = v) :
    runLanes f nT out n = v := by
  unfold runLanes
  exact foldl_owner f (fun id => id = id0) n id0 v (List.range nT) out
    (fun id hid o hne => hothers id hid o hne) hwrite hid0 (fun id _ he => he)

/-- Inner weighted sum of conv2d_parallel at centre (i, j), reindexed
from the C loops m in [-k_y/2, k_y - k_y/2), n in [-k_x/2, k_x - k_x/2)
by mh = m + k_y/2, nh = n + k_x/2; exact for j >= k_y/2 and i >= k_x/2,
which holds throughout the loop domain. -/
def conv2d_sum_centered (inn : Buf) (in_x : Nat) (k : KBuf) (kx ky : Nat) (i j : Nat) : Int :=
  (List.range ky).foldl (fun s mh =>
    (List.range kx).foldl (fun s nh =>
      s + inn ((j + mh - ky / 2) * in_x + (i + nh - kx / 2)) * ((k (mh * kx + nh) : Nat) : Int))
      s) 0

/-- Inner weighted sum of conv2d_shifted_parallel with window top-left
corner at (i, j), exactly as in the C loops m in [0, k_y), n in [0, k_x). -/
def conv2d_sum_shifted (inn : Buf) (in_x : Nat) (k : KBuf) (kx ky : Nat) (i j : Nat) : Int :=
  (List.range ky).foldl (fun s m =>
    (List.range kx).foldl (fun s n =>
      s + inn ((j + m) * in_x + (i + n)) * ((k (m * kx + n) : Nat) : Int)) s) 0

theorem sum_centered_eq_shifted (inn : Buf) (in_x : Nat) (k : KBuf) (kx ky i j : Nat)
    (hi : kx / 2 ≤ i) (hj : ky / 2 ≤ j) :
    conv2d_sum_centered inn in_x k kx ky i j =
      conv2d_sum_shifted inn in_x k kx ky (i - kx / 2) (j - ky / 2) := by
  unfold conv2d_sum_centered conv2d_sum_shifted
  apply List.foldl_ext
  intro s mh _
  apply List.foldl_ext
  intro s2 nh _
  have h1 : j + mh - ky / 2 = j - ky / 2 + mh := by omega
  have h2 : i + nh - kx / 2 = i - kx / 2 + nh := by omega
  rw [h1, h2]

/-- Unrolled nine-term weighted sum of conv2d_3x3_unrolled_parallel at
centre (i, j) (the C code indexes rows j-1, j, j+1 and columns i-1, i, i+1). -/
def conv2d_3x3_sum (inn : Buf) (in_x : Nat) (k : KBuf) (i j : Nat) : Int :=
  inn ((j - 1) * in_x + (i - 1)) * ((k 0 : Nat) : Int) +
  inn ((j - 1) * in_x + i) * ((k 1 : Nat) : Int) +
  inn ((j - 1) * in_x + (i + 1)) * ((k 2 : Nat) : Int) +
  inn (j * in_x + (i - 1)) * ((k 3 : Nat) : Int) +
  inn (j * in_x + i) * ((k 4 : Nat) : Int) +
  inn (j * in_x + (i + 1)) * ((k 5 : Nat) : Int) +
  inn ((j + 1) * in_x + (i - 1)) * ((k 6 : Nat) : Int) +
  inn ((j + 1) * in_x + i) * ((k 7 : Nat) : Int) +
  inn ((j + 1) * in_x + (i + 1)) * ((k 8 : Nat) : Int)

/-- Unrolled nine-term weighted sum of conv2d_3x3_shifted_unrolled_parallel
with window top-left corner at (i, j). -/
def conv2d_3x3_shifted_sum (inn : Buf) (in_x : Nat) (k : KBuf) (i j : Nat) : Int :=
  inn (j * in_x + i) * ((k 0 : Nat) : Int) +
  inn (j * in_x + (i + 1)) * ((k 1 : Nat) : Int) +
  inn (j * in_x + (i + 2)) * ((k 2 : Nat) : Int) +
  inn ((j + 1) * in_x + i) * ((k 3 : Nat) : Int) +
  inn ((j + 1) * in_x + (i + 1)) * ((k 4 : Nat) : Int) +
  inn ((j + 1) * in_x + (i + 2)) * ((k 5 : Nat) : Int) +
  inn ((j + 2) * in_x + i) * ((k 6 : Nat) : Int) +
  inn ((j + 2) * in_x + (i + 1)) * ((k 7 : Nat) : Int) +
  inn ((j + 2) * in_x + (i + 2)) * ((k 8 : Nat) : Int)

/-- Columns owned by one lane of conv2d_parallel: the lane id is first
advanced past the left boundary k_x/2 by repeated += numThreads, then
strided by numThreads below in_x - k_x/2. -/
def conv2d_cols (in_x kx nT id : Nat) : List Nat :=
  strided (advanceId nT (kx / 2) id) (in_x - kx / 2) nT

/-- Rows scanned by every lane of conv2d_parallel. -/
def conv2d_rows (in_y ky : Nat) : List Nat :=
  rangeFrom (ky / 2) (in_y - ky / 2)

def conv2d_parallel (inn : Buf) (in_x in_y : Nat) (k : KBuf) (kx ky : Nat)
    (id nT : Nat) (out : Buf) : Buf :=
  convLoop (conv2d_cols in_x kx nT id) (conv2d_rows in_y ky)
    (fun i j => j * in_x + i)
    (fun i j => storeVal (conv2d_sum_centered inn in_x k kx ky i j) (convWeight k (kx * ky)))
    out

/-- Columns owned by one lane of conv2d_shifted_parallel. -/
def conv2d_shifted_cols (in_x kx nT id : Nat) : List Nat :=
  strided id (in_x - 2 * (kx / 2)) nT

/-- Rows scanned by every lane of conv2d_shifted_parallel. -/
def conv2d_shifted_rows (in_y ky : Nat) : List Nat :=
  List.range (in_y - 2 * (ky / 2))

def conv2d_shifted_parallel (inn : Buf) (in_x in_y : Nat) (k : KBuf) (kx ky : Nat)
    (id nT : Nat) (out : Buf) : Buf :=
  convLoop (conv2d_shifted_cols in_x kx nT id) (conv2d_shifted_rows in_y ky)
    (fun i j => (j + ky / 2) * in_x + (i + kx / 2))
    (fun i j => storeVal (conv2d_sum_shifted inn in_x k kx ky i j) (convWeight k (kx * ky)))
    out

/-- Block partition bounds of conv2d_3x3_unrolled_parallel, exactly as
computed by the source: start = div*id, end = div*(id+1), then both are
incremented by (id < rem ? id : rem). -/
def blockStart (in_x nT id : Nat) : Nat :=
  in_x / nT * id + (if id < in_x % nT then id else in_x % nT)

def blockEnd (in_x nT id : Nat) : Nat :=
  in_x / nT * (id + 1) + (if id < in_x % nT then id else in_x % nT)

def blockStartClamped (in_x nT id : Nat) : Nat :=
  if blockStart in_x nT id < 1 then 1 else blockStart in_x nT id

def blockEndClamped (in_x nT id : Nat) : Nat :=
  if blockEnd in_x nT id > in_x - 1 then in_x - 1 else blockEnd in_x nT id

/-- Rows scanned by every lane of the 3x3 kernels. -/
def conv3x3_rows (in_y : Nat) : List Nat := rangeFrom 1 (in_y - 1)

def conv2d_3x3_unrolled_parallel (inn : Buf) (in_x in_y : Nat) (k : KBuf)
    (id nT : Nat) (out : Buf) : Buf :=
  convLoop (rangeFrom (blockStartClamped in_x nT id) (blockEndClamped in_x nT id))
    (conv3x3_rows in_y)
    (fun i j => j * in_x + i)
    (fun i j => storeVal (conv2d_3x3_sum inn in_x k i j) (convWeight k 9))
    out

def conv2d_3x3_shifted_unrolled_parallel (inn : Buf) (in_x in_y : Nat) (k : KBuf)
    (id nT : Nat) (out : Buf) : Buf :=
  convLoop (strided id (in_x - 2) nT) (List.range (in_y - 2))
    (fun i j => (j + 1) * in_x + (i + 1))
    (fun i j => storeVal (conv2d_3x3_shifted_sum inn in_x k i j) (convWeight k 9))
    out

theorem linIdx_inj (in_x a b c d : Nat) (hb : b < in_x) (hd : d < in_x)
    (h : a * in_x + b = c * in_x + d) : a = c ∧ b = d := by
  have hx : 0 < in_x := by omega
  have hbd : b = d := by
    have h1 := Nat.mul_add_mod in_x a b
    have h2 := Nat.mul_add_mod in_x c d
    rw [Nat.mul_comm in_x a, h] at h1
    rw [Nat.mul_comm in_x c] at h2
    rw [h2] at h1
    rw [Nat.mod_eq_of_lt hb, Nat.mod_eq_of_lt hd] at h1
    exact h1.symm
  refine ⟨?_, hbd⟩
  have hac : a * in_x = c * in_x := by omega
  exact Nat.eq_of_mul_eq_mul_right hx hac

/-- Membership in a lane's column list for conv2d_parallel: exactly the
columns congruent to id mod numThreads inside the valid column range. -/
theorem mem_conv2d_cols (in_x kx nT id x : Nat) (hnT : 1 ≤ nT) (hid : id < nT) :
    x ∈ conv2d_cols in_x kx nT id ↔
      x % nT = id ∧ kx / 2 ≤ x ∧ x < in_x - kx / 2 := by
  obtain ⟨c, hc, hbx, hmin⟩ := advanceId_spec nT (kx / 2) id hnT
  rw [conv2d_cols, mem_strided (advanceId nT (kx / 2) id) (in_x - kx / 2) nT x hnT]
  constructor
  · rintro ⟨t, hxt, hlt⟩
    have hx2 : x = id + (c + t) * nT := by
      have : (c + t) * nT = c * nT + t * nT := by ring
      omega
    have hmod : x % nT = id % nT := by
      rw [hx2]
      exact Nat.add_mul_mod_self_right id (c + t) nT
    rw [Nat.mod_eq_of_lt hid] at hmod
    refine ⟨hmod, by omega, hlt⟩
  · rintro ⟨hmod, hge, hlt⟩
    set a := advanceId nT (kx / 2) id with ha
    have hq : nT * (x / nT) + id = x := by
      have := Nat.div_add_mod x nT
      omega
    have hcq : c ≤ x / nT := by
      by_contra hcq
      push_neg at hcq
      have h5 : x / nT + 1 ≤ c := by omega
      have h6 : (x / nT + 1) * nT ≤ c * nT := Nat.mul_le_mul_right nT h5
      have h7 : (x / nT + 1) * nT = x / nT * nT + nT := by ring
      have h8 : nT * (x / nT) = x / nT * nT := by ring
      rcases hmin with hmin | hmin
      · omega
      · omega
    refine ⟨x / nT - c, ?_, hlt⟩
    have h9 : (x / nT - c) * nT = x / nT * nT - c * nT := by
      have := Nat.sub_mul (x / nT) c nT
      omega
    have h8 : nT * (x / nT) = x / nT * nT := by ring
    have h10 : c * nT ≤ x / nT * nT := Nat.mul_le_mul_right nT hcq
    omega

theorem mem_conv2d_rows (in_y ky y : Nat) :
    y ∈ conv2d_rows in_y ky ↔ ky / 2 ≤ y ∧ y < in_y - ky / 2 :=
  mem_rangeFrom (ky / 2) (in_y - ky / 2) y

theorem mem_conv3x3_rows (in_y y : Nat) :
    y ∈ conv3x3_rows in_y ↔ 1 ≤ y ∧ y < in_y - 1 :=
  mem_rangeFrom 1 (in_y - 1) y

theorem mem_strided_mod (id B nT x : Nat) (hnT : 1 ≤ nT) (hid : id < nT) :
    x ∈ strided id B nT ↔ x % nT = id ∧ x < B := by
  rw [mem_strided id B nT x hnT]
  constructor
  · rintro ⟨t, rfl, hlt⟩
    refine ⟨?_, hlt⟩
    rw [Nat.add_mul_mod_self_right]
    exact Nat.mod_eq_of_lt hid
  · rintro ⟨hmod, hlt⟩
    refine ⟨x / nT, ?_, hlt⟩
    have h7 := Nat.div_add_mod x nT
    have h8 : nT * (x / nT) = x / nT * nT := Nat.mul_comm nT (x / nT)
    omega

theorem mem_strided_succ_mod (id B nT x : Nat) (hnT : 1 ≤ nT) (hid : id < nT) :
    x ∈ strided (id + 1) B nT ↔ 1 ≤ x ∧ (x - 1) % nT = id ∧ x < B := by
  rw [mem_strided (id + 1) B nT x hnT]
  constructor
  · rintro ⟨t, rfl, hlt⟩
    refine ⟨by omega, ?_, hlt⟩
    have h6 : id + 1 + t * nT - 1 = id + t * nT := by omega
    rw [h6, Nat.add_mul_mod_self_right]
    exact Nat.mod_eq_of_lt hid
  · rintro ⟨hge, hmod, hlt⟩
    refine ⟨(x - 1) / nT, ?_, hlt⟩
    have h7 := Nat.div_add_mod (x - 1) nT
    have h8 : nT * ((x - 1) / nT) = (x - 1) / nT * nT := Nat.mul_comm nT ((x - 1) / nT)
    omega

theorem blockEnd_le_blockStart (in_x nT id1 id2 : Nat) (h : id1 < id2) :
    blockEnd in_x nT id1 ≤ blockStart in_x nT id2 := by
  unfold blockEnd blockStart
  have h1 : in_x / nT * (id1 + 1) ≤ in_x / nT * id2 :=
    Nat.mul_le_mul_left (in_x / nT) (by omega)
  have h2 : (if id1 < in_x % nT then id1 else in_x % nT) ≤
      (if id2 < in_x % nT then id2 else in_x % nT) := by
    split_ifs <;> omega
  omega

theorem blockStartClamped_pos (in_x nT id : Nat) : 1 ≤ blockStartClamped in_x nT id := by
  unfold blockStartClamped
  split_ifs <;> omega

theorem blockEndClamped_le (in_x nT id : Nat) : blockEndClamped in_x nT id ≤ in_x - 1 := by
  unfold blockEndClamped
  split_ifs <;> omega

theorem blockStart_le_clamped (in_x nT id : Nat) :
    blockStart in_x nT id ≤ blockStartClamped in_x nT id := by
  unfold blockStartClamped
  split_ifs <;> omega

theorem blockEndClamped_le_end (in_x nT id : Nat) :
    blockEndClamped in_x nT id ≤ blockEnd in_x nT id := by
  unfold blockEndClamped
  split_ifs with hsp
  · unfold blockEnd at hsp ⊢
    omega
  · exact Nat.le_refl _

theorem block_cols_disjoint (in_x nT id1 id2 x : Nat) (h : id1 ≠ id2)
    (h1 : x ∈ rangeFrom (blockStartClamped in_x nT id1) (blockEndClamped in_x nT id1))
    (h2 : x ∈ rangeFrom (blockStartClamped in_x nT id2) (blockEndClamped in_x nT id2)) :
    False := by
  rw [mem_rangeFrom] at h1 h2
  rcases Nat.lt_or_ge id1 id2 with hlt | hge
  · have ha := blockEndClamped_le_end in_x nT id1
    have hb := blockEnd_le_blockStart in_x nT id1 id2 hlt
    have hc := blockStart_le_clamped in_x nT id2
    omega
  · have hlt2 : id2 < id1 := by omega
    have ha := blockEndClamped_le_end in_x nT id2
    have hb := blockEnd_le_blockStart in_x nT id2 id1 hlt2
    have hc := blockStart_le_clamped in_x nT id1
    omega

theorem bits32_lt (z : Int) : bits32 z < 2 ^ 32 := by
  unfold bits32
  have h1 : (0 : Int) ≤ z % (2 ^ 32 : Int) := Int.emod_nonneg z (by norm_num)
  have h2 : z % (2 ^ 32 : Int) < 2 ^ 32 := Int.emod_lt_of_pos z (by norm_num)
  omega

theorem bits32_nonneg (z : Int) (h0 : 0 ≤ z) (h1 : z < 2 ^ 32) : bits32 z = z.toNat := by
  unfold bits32
  rw [Int.emod_eq_of_lt h0 h1]

theorem int32ofBits_small (n : Nat) (h : n < 2 ^ 31) : int32ofBits n = (n : Int) := by
  unfold int32ofBits
  have h2 : n % 2 ^ 32 = n := Nat.mod_eq_of_lt (by omega)
  rw [h2, if_pos h]

/-- When the int32_t value of the accumulated sum is negative, its
32-bit pattern is that value plus 2^32. -/
theorem asInt32_neg_bits (z : Int) (h : asInt32 z < 0) :
    bits32 z = (asInt32 z + 2 ^ 32).toNat := by
  have hb := bits32_lt z
  unfold asInt32 int32ofBits at h ⊢
  have hm : bits32 z % 2 ^ 32 = bits32 z := Nat.mod_eq_of_lt hb
  by_cases hlt : bits32 z % 2 ^ 32 < 2 ^ 31
  · rw [if_pos hlt] at h
    omega
  · rw [if_neg hlt] at h ⊢
    omega

/-- After all lanes of conv2d_parallel have run, every valid output
coordinate holds the normalized centred weighted sum. -/
theorem conv2d_parallel_all_value (inn out : Buf) (k : KBuf)
    (in_x in_y kx ky nT x y : Nat)
    (hnT : 1 ≤ nT) (hx1 : kx / 2 ≤ x) (hx2 : x + kx / 2 < in_x)
    (hy1 : ky / 2 ≤ y) (hy2 : y + ky / 2 < in_y) :
    runLanes (fun id => conv2d_parallel inn in_x in_y k kx ky id nT) nT out (y * in_x + x) =
      storeVal (conv2d_sum_centered inn in_x k kx ky x y) (convWeight k (kx * ky)) := by
  have hxin : x < in_x := by omega
  refine runLanes_owner _ nT out (y * in_x + x) (x % nT) _ ?_ ?_ ?_
  · intro id hid o hne
    have hidlt : id < nT := List.mem_range.mp hid
    unfold conv2d_parallel
    apply convLoop_preserve
    intro i hi j hj heq
    rw [mem_conv2d_cols in_x kx nT id i hnT hidlt] at hi
    rw [mem_conv2d_rows in_y ky j] at hj
    have hiin : i < in_x := by omega
    obtain ⟨hjy, hix⟩ := linIdx_inj in_x j i y x hiin hxin heq
    exact hne (by rw [← hix]; exact hi.1.symm)
  · exact List.mem_range.mpr (Nat.mod_lt x hnT)
  · intro o
    unfold conv2d_parallel
    have hxm : x ∈ conv2d_cols in_x kx nT (x % nT) := by
      rw [mem_conv2d_cols in_x kx nT (x % nT) x hnT (Nat.mod_lt x hnT)]
      exact ⟨rfl, hx1, by omega⟩
    have hym : y ∈ conv2d_rows in_y ky := by
      rw [mem_conv2d_rows in_y ky y]
      exact ⟨hy1, by omega⟩
    refine convLoop_write _ _ _ _ o x y hxm hym ?_
    intro i hi j hj heq
    rw [mem_conv2d_cols in_x kx nT (x % nT) i hnT (Nat.mod_lt x hnT)] at hi
    have hiin : i < in_x := by omega
    obtain ⟨hjy, hix⟩ := linIdx_inj in_x j i y x hiin hxin heq
    exact ⟨hix, hjy⟩

/-- After all lanes of conv2d_shifted_parallel have run, the output at
(x, y) = (i + k_x/2, j + k_y/2) holds the normalized shifted weighted sum. -/
theorem conv2d_shifted_all_value (inn out : Buf) (k : KBuf)
    (in_x in_y kx ky nT x y : Nat)
    (hnT : 1 ≤ nT) (hx1 : kx / 2 ≤ x) (hx2 : x + kx / 2 < in_x)
    (hy1 : ky / 2 ≤ y) (hy2 : y + ky / 2 < in_y) :
    runLanes (fun id => conv2d_shifted_parallel inn in_x in_y k kx ky id nT) nT out
      (y * in_x + x) =
      storeVal (conv2d_sum_shifted inn in_x k kx ky (x - kx / 2) (y - ky / 2))
        (convWeight k (kx * ky)) := by
  have hxin : x < in_x := by omega
  refine runLanes_owner _ nT out (y * in_x + x) ((x - kx / 2) % nT) _ ?_ ?_ ?_
  · intro id hid o hne
    have hidlt : id < nT := List.mem_range.mp hid
    unfold conv2d_shifted_parallel
    apply convLoop_preserve
    intro i hi j hj heq
    rw [conv2d_shifted_cols, mem_strided_mod id (in_x - 2 * (kx / 2)) nT i hnT hidlt] at hi
    have hiin : i + kx / 2 < in_x := by omega
    obtain ⟨hjy, hix⟩ := linIdx_inj in_x (j + ky / 2) (i + kx / 2) y x hiin hxin heq
    refine hne ?_
    rw [← hi.1]
    have : i = x - kx / 2 := by omega
    rw [this]
  · exact List.mem_range.mpr (Nat.mod_lt (x - kx / 2) hnT)
  · intro o
    unfold conv2d_shifted_parallel
    have hxm : x - kx / 2 ∈ conv2d_shifted_cols in_x kx nT ((x - kx / 2) % nT) := by
      rw [conv2d_shifted_cols,
        mem_strided_mod ((x - kx / 2) % nT) (in_x - 2 * (kx / 2)) nT (x - kx / 2) hnT
          (Nat.mod_lt (x - kx / 2) hnT)]
      exact ⟨rfl, by omega⟩
    have hym : y - ky / 2 ∈ conv2d_shifted_rows in_y ky := by
      rw [conv2d_shifted_rows, List.mem_range]
      omega
    have hpos : (y - ky / 2 + ky / 2) * in_x + (x - kx / 2 + kx / 2) = y * in_x + x := by
      have e1 : y - ky / 2 + ky / 2 = y := by omega
      have e2 : x - kx / 2 + kx / 2 = x := by omega
      rw [e1, e2]
    have hw := convLoop_write (conv2d_shifted_cols in_x kx nT ((x - kx / 2) % nT))
      (conv2d_shifted_rows in_y ky)
      (fun i j => (j + ky / 2) * in_x + (i + kx / 2))
      (fun i j => storeVal (conv2d_sum_shifted inn in_x k kx ky i j) (convWeight k (kx * ky)))
      o (x - kx / 2) (y - ky / 2) hxm hym ?_
    · rw [← hpos]
      exact hw
    · intro i hi j hj heq
      rw [conv2d_shifted_cols,
        mem_strided_mod ((x - kx / 2) % nT) (in_x - 2 * (kx / 2)) nT i hnT
          (Nat.mod_lt (x - kx / 2) hnT)] at hi
      have hiin : i + kx / 2 < in_x := by omega
      have hxin2 : x - kx / 2 + kx / 2 < in_x := by omega
      obtain ⟨hjy, hix⟩ := linIdx_inj in_x (j + ky / 2) (i + kx / 2)
        (y - ky / 2 + ky / 2) (x - kx / 2 + kx / 2) hiin hxin2 heq
      constructor
      · omega
      · omega

/-- After all lanes of conv2d_3x3_unrolled_parallel have run, every
coordinate inside some lane's clamped block holds the normalized 3x3 sum. -/
theorem conv3x3_block_all_value (inn out : Buf) (k : KBuf)
    (in_x in_y nT id0 x y : Nat)
    (_hnT : 1 ≤ nT) (hid0 : id0 < nT)
    (hx : x ∈ rangeFrom (blockStartClamped in_x nT id0) (blockEndClamped in_x nT id0))
    (hy : y ∈ conv3x3_rows in_y) :
    runLanes (fun id => conv2d_3x3_unrolled_parallel inn in_x in_y k id nT) nT out
      (y * in_x + x) =
      storeVal (conv2d_3x3_sum inn in_x k x y) (convWeight k 9) := by
  have hxr := (mem_rangeFrom _ _ x).mp hx
  have hcl := blockEndClamped_le in_x nT id0
  have hxin : x < in_x := by omega
  refine runLanes_owner _ nT out (y * in_x + x) id0 _ ?_ ?_ ?_
  · intro id hid o hne
    unfold conv2d_3x3_unrolled_parallel
    apply convLoop_preserve
    intro i hi j hj heq
    have hir := (mem_rangeFrom _ _ i).mp hi
    have hcl2 := blockEndClamped_le in_x nT id
    have hiin : i < in_x := by omega
    obtain ⟨hjy, hix⟩ := linIdx_inj in_x j i y x hiin hxin heq
    subst hix
    exact block_cols_disjoint in_x nT id id0 i hne hi hx
  · exact List.mem_range.mpr hid0
  · intro o
    unfold conv2d_3x3_unrolled_parallel
    refine convLoop_write _ _ _ _ o x y hx hy ?_
    intro i hi j hj heq
    have hir := (mem_rangeFrom _ _ i).mp hi
    have hiin : i < in_x := by omega
    obtain ⟨hjy, hix⟩ := linIdx_inj in_x j i y x hiin hxin heq
    exact ⟨hix, hjy⟩

/-- After all lanes of conv2d_3x3_shifted_unrolled_parallel have run,
the output at (x+1, y+1) holds the normalized 3x3 shifted sum. -/
theorem conv3x3_shifted_all_value (inn out : Buf) (k : KBuf)
    (in_x in_y nT x y : Nat)
    (hnT : 1 ≤ nT) (hx : x < in_x - 2) (hy : y < in_y - 2) :
    runLanes (fun id => conv2d_3x3_shifted_unrolled_parallel inn in_x in_y k id nT) nT out
      ((y + 1) * in_x + (x + 1)) =
      storeVal (conv2d_3x3_shifted_sum inn in_x k x y) (convWeight k 9) := by
  have hxin : x + 1 < in_x := by omega
  refine runLanes_owner _ nT out ((y + 1) * in_x + (x + 1)) (x % nT) _ ?_ ?_ ?_
  · intro id hid o hne
    have hidlt : id < nT := List.mem_range.mp hid
    unfold conv2d_3x3_shifted_unrolled_parallel
    apply convLoop_preserve
    intro i hi j hj heq
    rw [mem_strided_mod id (in_x - 2) nT i hnT hidlt] at hi
    have hiin : i + 1 < in_x := by omega
    obtain ⟨hjy, hix⟩ := linIdx_inj in_x (j + 1) (i + 1) (y + 1) (x + 1) hiin hxin heq
    refine hne ?_
    have : i = x := by omega
    rw [← hi.1, this]
  · exact List.mem_range.mpr (Nat.mod_lt x hnT)
  · intro o
    unfold conv2d_3x3_shifted_unrolled_parallel
    have hxm : x ∈ strided (x % nT) (in_x - 2) nT := by
      rw [mem_strided_mod (x % nT) (in_x - 2) nT x hnT (Nat.mod_lt x hnT)]
      exact ⟨rfl, hx⟩
    have hym : y ∈ List.range (in_y - 2) := List.mem_range.mpr hy
    refine convLoop_write _ _ _ _ o x y hxm hym ?_
    intro i hi j hj heq
    rw [mem_strided_mod (x % nT) (in_x - 2) nT i hnT (Nat.mod_lt x hnT)] at hi
    have hiin : i + 1 < in_x := by omega
    obtain ⟨hjy, hix⟩ := linIdx_inj in_x (j + 1) (i + 1) (y + 1) (x + 1) hiin hxin heq
    constructor
    · omega
    · omega

/-- init_conv2d_image: fill img[i][j] = (i % 16) + (j % 4); lanes stride
over rows if img_y > img_x, else over columns. -/
def init_conv2d_image (img : Buf) (img_x img_y id nT : Nat) : Buf :=
  if img_x < img_y then
    (strided id img_y nT).foldl (fun b i =>
      (List.range img_x).foldl (fun b j =>
        writeBuf b (i * img_x + j) ((i % 16 + j % 4 : Nat) : Int)) b) img
  else
    (strided id img_x nT).foldl (fun b j =>
      (List.range img_y).foldl (fun b i =>
        writeBuf b (i * img_x + j) ((i % 16 + j % 4 : Nat) : Int)) b) img

/-- init_conv2d_image run over all lane ids 0 .. nT-1. -/
def init_all (img : Buf) (img_x img_y nT : Nat) : Buf :=
  runLanes (fun id o => init_conv2d_image o img_x img_y id nT) nT img

/-- The row contribution y of verify_conv2d_image: y = i % 16, with
i % 16 == 0 mapped to 4 and i % 16 == 15 mapped to 11. -/
def verifyRowVal (i : Nat) : Int :=
  if i % 16 = 0 then 4 else if i % 16 = 15 then 11 else ((i % 16 : Nat) : Int)

/-- The column contribution x of verify_conv2d_image: ((j % 4) / 2) + 1. -/
def verifyColVal (j : Nat) : Int := ((j % 4 / 2 : Nat) : Int) + 1

/-- The value verify_conv2d_image expects at (row i, column j). -/
def verifyExpected (i j : Nat) : Int := verifyColVal j + verifyRowVal i

/-- The failure code returned at the first mismatch: -1 if i + j == 0,
else the linear index i * img_x + j. -/
def verifyCode (img_x i j : Nat) : Int :=
  if i + j = 0 then -1 else ((i * img_x + j : Nat) : Int)

/-- The inner column loop of verify_conv2d_image over the listed columns
of row i: on a mismatch return the failure code and stop, on a match
reset the element to 0 and continue. -/
def verifyCols (img_x i : Nat) : List Nat → Buf → Option Int × Buf
  | [], b => (none, b)
  | j :: js, b =>
    if b (i * img_x + j) ≠ verifyExpected i j then (some (verifyCode img_x i j), b)
    else verifyCols img_x i js (writeBuf b (i * img_x + j) 0)

/-- The outer row loop of verify_conv2d_image: an error from any row is
returned immediately. -/
def verifyRows (img_x : Nat) : List Nat → Buf → Option Int × Buf
  | [], b => (none, b)
  | i :: is, b =>
    match verifyCols img_x i (rangeFrom 1 (img_x - 1)) b with
    | (some r, b2) => (some r, b2)
    | (none, b2) => verifyRows img_x is b2

/-- verify_conv2d_image for one lane: scans rows i = id+1, id+1+nT, ...
below img_y - 1 and columns j in [1, img_x - 1), returns 0 on success
or the failure code of the first mismatch, zeroing matched elements. -/
def verify_conv2d_image (img : Buf) (img_x img_y id nT : Nat) : Int × Buf :=
  match verifyRows img_x (strided (id + 1) (img_y - 1) nT) img with
  | (some r, b) => (r, b)
  | (none, b) => (0, b)

/-- verify_conv2d_image run over all lane ids 0 .. nT-1 in order,
collecting the per-lane return codes and threading the buffer. -/
def verify_all (img : Buf) (img_x img_y nT : Nat) : List Int × Buf :=
  (List.range nT).foldl
    (fun acc id =>
      ((acc.1 ++ [(verify_conv2d_image acc.2 img_x img_y id nT).1],
        (verify_conv2d_image acc.2 img_x img_y id nT).2)))
    ([], img)

theorem verifyCols_frame (img_x i : Nat) :
    ∀ (js : List Nat) (b : Buf) (n : Nat),
      (∀ j ∈ js, n ≠ i * img_x + j) →
      (verifyCols img_x i js b).2 n = b n := by
  intro js
  induction js with
  | nil => intro b n _; rfl
  | cons j js ih =>
    intro b n hn
    simp only [verifyCols]
    by_cases hc : b (i * img_x + j) ≠ verifyExpected i j
    · rw [if_pos hc]
    · rw [if_neg hc]
      rw [ih (writeBuf b (i * img_x + j) 0) n
        (fun j2 hj2 => hn j2 (List.mem_cons_of_mem j hj2))]
      exact writeBuf_ne b (i * img_x + j) 0 n (hn j (List.mem_cons_self j js))

theorem verifyCols_ok (img_x i : Nat) :
    ∀ (js : List Nat) (b : Buf), js.Nodup →
      (∀ j ∈ js, b (i * img_x + j) = verifyExpected i j) →
      (verifyCols img_x i js b).1 = none ∧
      (∀ n, (verifyCols img_x i js b).2 n =
        if ∃ j ∈ js, n = i * img_x + j then 0 else b n) := by
  intro js
  induction js with
  | nil =>
    intro b _ _
    refine ⟨rfl, ?_⟩
    intro n
    simp [verifyCols]
  | cons j js ih =>
    intro b hnd hb
    have hbj : b (i * img_x + j) = verifyExpected i j := hb j (List.mem_cons_self j js)
    have hstep : verifyCols img_x i (j :: js) b =
        verifyCols img_x i js (writeBuf b (i * img_x + j) 0) := by
      simp only [verifyCols]
      rw [if_neg (fun hne => hne hbj)]
    have hb2 : ∀ j2 ∈ js, writeBuf b (i * img_x + j) 0 (i * img_x + j2) = verifyExpected i j2 := by
      intro j2 hj2
      have hne : j2 ≠ j := by
        intro he; subst he
        exact (List.nodup_cons.mp hnd).1 hj2
      rw [writeBuf_ne b (i * img_x + j) 0 (i * img_x + j2)
        (fun he => hne (Nat.add_left_cancel he))]
      exact hb j2 (List.mem_cons_of_mem j hj2)
    obtain ⟨h1, h2⟩ := ih (writeBuf b (i * img_x + j) 0) (List.nodup_cons.mp hnd).2 hb2
    rw [hstep]
    refine ⟨h1, ?_⟩
    intro n
    rw [h2 n]
    by_cases hmem : ∃ j2 ∈ js, n = i * img_x + j2
    · obtain ⟨j2, hj2m, hn⟩ := hmem
      rw [if_pos ⟨j2, hj2m, hn⟩, if_pos ⟨j2, List.mem_cons_of_mem j hj2m, hn⟩]
    · rw [if_neg hmem]
      by_cases hnj : n = i * img_x + j
      · subst hnj
        rw [writeBuf_self, if_pos ⟨j, List.mem_cons_self j js, rfl⟩]
      · have hcond : ¬ ∃ j2 ∈ j :: js, n = i * img_x + j2 := by
          intro hc
          obtain ⟨j2, hj2m, hn⟩ := hc
          rcases List.mem_cons.mp hj2m with h | h
          · subst h; exact hnj hn
          · exact hmem ⟨j2, h, hn⟩
        rw [writeBuf_ne b (i * img_x + j) 0 n hnj, if_neg hcond]

theorem verifyCols_miss (img_x i cj : Nat) :
    ∀ (js : List Nat) (b : Buf), js.Nodup → cj ∈ js →
      (∀ j ∈ js, j ≠ cj → b (i * img_x + j) = verifyExpected i j) →
      b (i * img_x + cj) ≠ verifyExpected i cj →
      (verifyCols img_x i js b).1 = some (verifyCode img_x i cj) := by
  intro js
  induction js with
  | nil => intro b _ hmem _ _; exact absurd hmem (List.not_mem_nil cj)
  | cons j js ih =>
    intro b hnd hmem hb hmis
    by_cases hj : j = cj
    · subst hj
      simp only [verifyCols]
      rw [if_pos hmis]
    · have hmem2 : cj ∈ js := by
        rcases List.mem_cons.mp hmem with h | h
        · exact absurd h.symm hj
        · exact h
      have hbj : b (i * img_x + j) = verifyExpected i j :=
        hb j (List.mem_cons_self j js) hj
      simp only [verifyCols]
      rw [if_neg (fun hne => hne hbj)]
      apply ih (writeBuf b (i * img_x + j) 0) (List.nodup_cons.mp hnd).2 hmem2
      · intro j2 hj2 hj2c
        have hne : j2 ≠ j := by
          intro he; subst he
          exact (List.nodup_cons.mp hnd).1 hj2
        rw [writeBuf_ne b (i * img_x + j) 0 (i * img_x + j2)
          (fun he => hne (Nat.add_left_cancel he))]
        exact hb j2 (List.mem_cons_of_mem j hj2) hj2c
      · rw [writeBuf_ne b (i * img_x + j) 0 (i * img_x + cj)
          (fun he => hj (Nat.add_left_cancel he).symm)]
        exact hmis

theorem verifyCols_first (img_x i cj : Nat) (post : List Nat) :
    ∀ (pre : List Nat) (b : Buf), (pre ++ cj :: post).Nodup →
      (∀ j ∈ pre, b (i * img_x + j) = verifyExpected i j) →
      b (i * img_x + cj) ≠ verifyExpected i cj →
      (verifyCols img_x i (pre ++ cj :: post) b).1 = some (verifyCode img_x i cj) := by
  intro pre
  induction pre with
  | nil =>
    intro b _ _ hmis
    simp only [List.nil_append, verifyCols]
    rw [if_pos hmis]
  | cons j pre ih =>
    intro b hnd hpre hmis
    have hbj : b (i * img_x + j) = verifyExpected i j := hpre j (List.mem_cons_self j pre)
    have hjni : j ∉ pre ++ cj :: post := (List.nodup_cons.mp hnd).1
    simp only [List.cons_append, verifyCols]
    rw [if_neg (fun hne => hne hbj)]
    apply ih (writeBuf b (i * img_x + j) 0) (List.nodup_cons.mp hnd).2
    · intro j2 hj2
      have hne : j2 ≠ j := by
        intro he; subst he
        exact hjni (List.mem_append.mpr (Or.inl hj2))
      rw [writeBuf_ne b (i * img_x + j) 0 (i * img_x + j2)
        (fun he => hne (Nat.add_left_cancel he))]
      exact hpre j2 (List.mem_cons_of_mem j hj2)
    · have hne : cj ≠ j := by
        intro he
        rw [he] at hjni
        exact hjni (List.mem_append.mpr (Or.inr (List.mem_cons_self j post)))
      rw [writeBuf_ne b (i * img_x + j) 0 (i * img_x + cj)
        (fun he => hne (Nat.add_left_cancel he))]
      exact hmis

theorem verifyRows_cons_none (img_x i : Nat) (is : List Nat) (b : Buf)
    (h : (verifyCols img_x i (rangeFrom 1 (img_x - 1)) b).1 = none) :
    verifyRows img_x (i :: is) b =
      verifyRows img_x is (verifyCols img_x i (rangeFrom 1 (img_x - 1)) b).2 := by
  have hvc : verifyCols img_x i (rangeFrom 1 (img_x - 1)) b =
      (none, (verifyCols img_x i (rangeFrom 1 (img_x - 1)) b).2) := by
    rw [← h]
  simp only [verifyRows]
  rw [hvc]

theorem verifyRows_cons_some (img_x i : Nat) (is : List Nat) (b : Buf) (r : Int)
    (h : (verifyCols img_x i (rangeFrom 1 (img_x - 1)) b).1 = some r) :
    verifyRows img_x (i :: is) b =
      (some r, (verifyCols img_x i (rangeFrom 1 (img_x - 1)) b).2) := by
  have hvc : verifyCols img_x i (rangeFrom 1 (img_x - 1)) b =
      (some r, (verifyCols img_x i (rangeFrom 1 (img_x - 1)) b).2) := by
    rw [← h]
  simp only [verifyRows]
  rw [hvc]

theorem verifyRows_frame (img_x : Nat) :
    ∀ (is : List Nat) (b : Buf) (n : Nat),
      (∀ i ∈ is, ∀ j, 1 ≤ j → j < img_x - 1 → n ≠ i * img_x + j) →
      (verifyRows img_x is b).2 n = b n := by
  intro is
  induction is with
  | nil => intro b n _; rfl
  | cons i is ih =>
    intro b n hn
    have hframe : (verifyCols img_x i (rangeFrom 1 (img_x - 1)) b).2 n = b n := by
      refine verifyCols_frame img_x i (rangeFrom 1 (img_x - 1)) b n ?_
      intro j hj
      have hjr := (mem_rangeFrom 1 (img_x - 1) j).mp hj
      exact hn i (List.mem_cons_self i is) j hjr.1 hjr.2
    rcases hvc : (verifyCols img_x i (rangeFrom 1 (img_x - 1)) b).1 with _ | r
    · rw [verifyRows_cons_none img_x i is b hvc]
      rw [ih (verifyCols img_x i (rangeFrom 1 (img_x - 1)) b).2 n
        (fun i2 hi2 => hn i2 (List.mem_cons_of_mem i hi2))]
      exact hframe
    · rw [verifyRows_cons_some img_x i is b r hvc]
      exact hframe

theorem verifyRows_ok (img_x : Nat) :
    ∀ (is : List Nat) (b : Buf), is.Nodup →
      (∀ i ∈ is, ∀ j ∈ rangeFrom 1 (img_x - 1), b (i * img_x + j) = verifyExpected i j) →
      (verifyRows img_x is b).1 = none ∧
      (∀ i ∈ is, ∀ j ∈ rangeFrom 1 (img_x - 1),
        (verifyRows img_x is b).2 (i * img_x + j) = 0) := by
  intro is
  induction is with
  | nil =>
    intro b _ _
    refine ⟨rfl, ?_⟩
    intro i hi
    exact absurd hi (List.not_mem_nil i)
  | cons i is ih =>
    intro b hnd hb
    obtain ⟨hc1, hc2⟩ := verifyCols_ok img_x i (rangeFrom 1 (img_x - 1)) b
      (rangeFrom_nodup 1 (img_x - 1)) (hb i (List.mem_cons_self i is))
    rw [verifyRows_cons_none img_x i is b hc1]
    have hb2 : ∀ i2 ∈ is, ∀ j ∈ rangeFrom 1 (img_x - 1),
        (verifyCols img_x i (rangeFrom 1 (img_x - 1)) b).2 (i2 * img_x + j) =
          verifyExpected i2 j := by
      intro i2 hi2 j hj
      rw [hc2 (i2 * img_x + j)]
      have hcond : ¬ ∃ j2 ∈ rangeFrom 1 (img_x - 1), i2 * img_x + j = i * img_x + j2 := by
        intro hc
        obtain ⟨j2, hj2m, he⟩ := hc
        have hjr := (mem_rangeFrom 1 (img_x - 1) j).mp hj
        have hj2r := (mem_rangeFrom 1 (img_x - 1) j2).mp hj2m
        obtain ⟨hi2i, _⟩ := linIdx_inj img_x i2 j i j2 (by omega) (by omega) he
        subst hi2i
        exact (List.nodup_cons.mp hnd).1 hi2
      rw [if_neg hcond]
      exact hb i2 (List.mem_cons_of_mem i hi2) j hj
    obtain ⟨h1, h2⟩ := ih (verifyCols img_x i (rangeFrom 1 (img_x - 1)) b).2
      (List.nodup_cons.mp hnd).2 hb2
    refine ⟨h1, ?_⟩
    intro i2 hi2 j hjm
    rcases List.mem_cons.mp hi2 with hh | hh
    · subst hh
      have hframe : (verifyRows img_x is
          (verifyCols img_x i2 (rangeFrom 1 (img_x - 1)) b).2).2 (i2 * img_x + j) =
          (verifyCols img_x i2 (rangeFrom 1 (img_x - 1)) b).2 (i2 * img_x + j) := by
        refine verifyRows_frame img_x is _ (i2 * img_x + j) ?_
        intro i3 hi3 j3 h1j h2j he
        have hjr := (mem_rangeFrom 1 (img_x - 1) j).mp hjm
        obtain ⟨hii, _⟩ := linIdx_inj img_x i2 j i3 j3 (by omega) (by omega) he
        subst hii
        exact (List.nodup_cons.mp hnd).1 hi3
      rw [hframe, hc2 (i2 * img_x + j), if_pos ⟨j, hjm, rfl⟩]
    · exact h2 i2 hh j hjm

theorem verifyRows_miss (img_x ci cj : Nat) (hcj1 : 1 ≤ cj) (hcj2 : cj < img_x - 1) :
    ∀ (is : List Nat) (b : Buf), is.Nodup → ci ∈ is →
      (∀ i ∈ is, ∀ j ∈ rangeFrom 1 (img_x - 1), (i ≠ ci ∨ j ≠ cj) →
        b (i * img_x + j) = verifyExpected i j) →
      b (ci * img_x + cj) ≠ verifyExpected ci cj →
      (verifyRows img_x is b).1 = some (verifyCode img_x ci cj) := by
  intro is
  induction is with
  | nil => intro b _ hmem _ _; exact absurd hmem (List.not_mem_nil ci)
  | cons i is ih =>
    intro b hnd hmem hb hmis
    by_cases hi : i = ci
    · subst hi
      have hm : (verifyCols img_x i (rangeFrom 1 (img_x - 1)) b).1 =
          some (verifyCode img_x i cj) := by
        refine verifyCols_miss img_x i cj (rangeFrom 1 (img_x - 1)) b
          (rangeFrom_nodup 1 (img_x - 1))
          ((mem_rangeFrom 1 (img_x - 1) cj).mpr ⟨hcj1, hcj2⟩) ?_ hmis
        intro j hjm hjc
        exact hb i (List.mem_cons_self i is) j hjm (Or.inr hjc)
      rw [verifyRows_cons_some img_x i is b (verifyCode img_x i cj) hm]
    · have hmem2 : ci ∈ is := by
        rcases List.mem_cons.mp hmem with h | h
        · exact absurd h.symm hi
        · exact h
      have hok := verifyCols_ok img_x i (rangeFrom 1 (img_x - 1)) b
        (rangeFrom_nodup 1 (img_x - 1))
        (fun j hjm => hb i (List.mem_cons_self i is) j hjm (Or.inl hi))
      rw [verifyRows_cons_none img_x i is b hok.1]
      refine ih (verifyCols img_x i (rangeFrom 1 (img_x - 1)) b).2
        (List.nodup_cons.mp hnd).2 hmem2 ?_ ?_
      · intro i2 hi2 j hjm hor
        rw [hok.2 (i2 * img_x + j)]
        have hcond : ¬ ∃ j2 ∈ rangeFrom 1 (img_x - 1), i2 * img_x + j = i * img_x + j2 := by
          intro hc
          obtain ⟨j2, hj2m, he⟩ := hc
          have hjr := (mem_rangeFrom 1 (img_x - 1) j).mp hjm
          have hj2r := (mem_rangeFrom 1 (img_x - 1) j2).mp hj2m
          obtain ⟨hi2i, _⟩ := linIdx_inj img_x i2 j i j2 (by omega) (by omega) he
          subst hi2i
          exact (List.nodup_cons.mp hnd).1 hi2
        rw [if_neg hcond]
        exact hb i2 (List.mem_cons_of_mem i hi2) j hjm hor
      · rw [hok.2 (ci * img_x + cj)]
        have hcond : ¬ ∃ j2 ∈ rangeFrom 1 (img_x - 1), ci * img_x + cj = i * img_x + j2 := by
          intro hc
          obtain ⟨j2, hj2m, he⟩ := hc
          have hj2r := (mem_rangeFrom 1 (img_x - 1) j2).mp hj2m
          obtain ⟨hcii, _⟩ := linIdx_inj img_x ci cj i j2 (by omega) (by omega) he
          exact hi hcii.symm
        rw [if_neg hcond]
        exact hmis

theorem verifyRows_first (img_x ci cj : Nat) (hcj1 : 1 ≤ cj) (hcj2 : cj < img_x - 1)
    (post : List Nat) :
    ∀ (pre : List Nat) (b : Buf), (pre ++ ci :: post).Nodup →
      (∀ i ∈ pre, ∀ j ∈ rangeFrom 1 (img_x - 1), b (i * img_x + j) = verifyExpected i j) →
      (∀ j, 1 ≤ j → j < cj → b (ci * img_x + j) = verifyExpected ci j) →
      b (ci * img_x + cj) ≠ verifyExpected ci cj →
      (verifyRows img_x (pre ++ ci :: post) b).1 = some (verifyCode img_x ci cj) := by
  intro pre
  induction pre with
  | nil =>
    intro b _ _ hbefore hmis
    rw [List.nil_append]
    have hsplit : rangeFrom 1 (img_x - 1) =
        rangeFrom 1 cj ++ cj :: rangeFrom (cj + 1) (img_x - 1) := by
      rw [rangeFrom_append 1 (img_x - 1) cj hcj1 (by omega),
        rangeFrom_cons cj (img_x - 1) hcj2]
    have hm : (verifyCols img_x ci (rangeFrom 1 (img_x - 1)) b).1 =
        some (verifyCode img_x ci cj) := by
      rw [hsplit]
      refine verifyCols_first img_x ci cj (rangeFrom (cj + 1) (img_x - 1)) (rangeFrom 1 cj) b
        ?_ ?_ hmis
      · rw [← hsplit]
        exact rangeFrom_nodup 1 (img_x - 1)
      · intro j hjm
        have hjr := (mem_rangeFrom 1 cj j).mp hjm
        exact hbefore j hjr.1 hjr.2
    rw [verifyRows_cons_some img_x ci post b (verifyCode img_x ci cj) hm]
  | cons i pre ih =>
    intro b hnd hpre hbefore hmis
    have hini : i ∉ pre ++ ci :: post := (List.nodup_cons.mp (List.cons_append i pre _ ▸ hnd)).1
    have hic : i ≠ ci := by
      intro he
      rw [he] at hini
      exact hini (List.mem_append.mpr (Or.inr (List.mem_cons_self ci post)))
    have hok := verifyCols_ok img_x i (rangeFrom 1 (img_x - 1)) b
      (rangeFrom_nodup 1 (img_x - 1))
      (fun j hjm => hpre i (List.mem_cons_self i pre) j hjm)
    rw [List.cons_append, verifyRows_cons_none img_x i (pre ++ ci :: post) b hok.1]
    have hfr : ∀ i2 j, i2 ≠ i → 1 ≤ j → j < img_x - 1 →
        (verifyCols img_x i (rangeFrom 1 (img_x - 1)) b).2 (i2 * img_x + j) =
          b (i2 * img_x + j) := by
      intro i2 j hne h1 h2
      rw [hok.2 (i2 * img_x + j)]
      have hcond : ¬ ∃ j2 ∈ rangeFrom 1 (img_x - 1), i2 * img_x + j = i * img_x + j2 := by
        intro hc
        obtain ⟨j2, hj2m, he⟩ := hc
        have hj2r := (mem_rangeFrom 1 (img_x - 1) j2).mp hj2m
        obtain ⟨hi2i, _⟩ := linIdx_inj img_x i2 j i j2 (by omega) (by omega) he
        exact hne hi2i
      rw [if_neg hcond]
    refine ih (verifyCols img_x i (rangeFrom 1 (img_x - 1)) b).2
      (List.nodup_cons.mp (List.cons_append i pre _ ▸ hnd)).2 ?_ ?_ ?_
    · intro i2 hi2 j hjm
      have hne : i2 ≠ i := by
        intro he; subst he
        exact hini (List.mem_append.mpr (Or.inl hi2))
      have hjr := (mem_rangeFrom 1 (img_x - 1) j).mp hjm
      rw [hfr i2 j hne hjr.1 hjr.2]
      exact hpre i2 (List.mem_cons_of_mem i hi2) j hjm
    · intro j h1 h2
      rw [hfr ci j (fun he => hic he.symm) h1 (by omega)]
      exact hbefore j h1 h2
    · rw [hfr ci cj (fun he => hic he.symm) hcj1 hcj2]
      exact hmis

theorem verify_lane_of_none (img : Buf) (img_x img_y id nT : Nat)
    (h : (verifyRows img_x (strided (id + 1) (img_y - 1) nT) img).1 = none) :
    verify_conv2d_image img img_x img_y id nT =
      (0, (verifyRows img_x (strided (id + 1) (img_y - 1) nT) img).2) := by
  have hvr : verifyRows img_x (strided (id + 1) (img_y - 1) nT) img =
      (none, (verifyRows img_x (strided (id + 1) (img_y - 1) nT) img).2) := by
    rw [← h]
  unfold verify_conv2d_image
  rw [hvr]

theorem verify_lane_of_some (img : Buf) (img_x img_y id nT : Nat) (r : Int)
    (h : (verifyRows img_x (strided (id + 1) (img_y - 1) nT) img).1 = some r) :
    verify_conv2d_image img img_x img_y id nT =
      (r, (verifyRows img_x (strided (id + 1) (img_y - 1) nT) img).2) := by
  have hvr : verifyRows img_x (strided (id + 1) (img_y - 1) nT) img =
      (some r, (verifyRows img_x (strided (id + 1) (img_y - 1) nT) img).2) := by
    rw [← h]
  unfold verify_conv2d_image
  rw [hvr]

theorem verifyLane_ok (img : Buf) (img_x img_y id nT : Nat) (hnT : 1 ≤ nT)
    (hb : ∀ i ∈ strided (id + 1) (img_y - 1) nT, ∀ j ∈ rangeFrom 1 (img_x - 1),
      img (i * img_x + j) = verifyExpected i j) :
    (verify_conv2d_image img img_x img_y id nT).1 = 0 ∧
    (∀ i ∈ strided (id + 1) (img_y - 1) nT, ∀ j ∈ rangeFrom 1 (img_x - 1),
      (verify_conv2d_image img img_x img_y id nT).2 (i * img_x + j) = 0) ∧
    (∀ n, (∀ i ∈ strided (id + 1) (img_y - 1) nT, ∀ j, 1 ≤ j → j < img_x - 1 →
      n ≠ i * img_x + j) → (verify_conv2d_image img img_x img_y id nT).2 n = img n) := by
  obtain ⟨h1, h2⟩ := verifyRows_ok img_x (strided (id + 1) (img_y - 1) nT) img
    (strided_nodup (id + 1) (img_y - 1) nT hnT) hb
  rw [verify_lane_of_none img img_x img_y id nT h1]
  refine ⟨rfl, h2, ?_⟩
  intro n hn
  exact verifyRows_frame img_x (strided (id + 1) (img_y - 1) nT) img n hn

theorem verifyLane_miss (img : Buf) (img_x img_y id nT ci cj : Nat) (hnT : 1 ≤ nT)
    (hci : ci ∈ strided (id + 1) (img_y - 1) nT) (hcj1 : 1 ≤ cj) (hcj2 : cj < img_x - 1)
    (hb : ∀ i ∈ strided (id + 1) (img_y - 1) nT, ∀ j ∈ rangeFrom 1 (img_x - 1),
      (i ≠ ci ∨ j ≠ cj) → img (i * img_x + j) = verifyExpected i j)
    (hmis : img (ci * img_x + cj) ≠ verifyExpected ci cj) :
    (verify_conv2d_image img img_x img_y id nT).1 = verifyCode img_x ci cj ∧
    (∀ n, (∀ i ∈ strided (id + 1) (img_y - 1) nT, ∀ j, 1 ≤ j → j < img_x - 1 →
      n ≠ i * img_x + j) → (verify_conv2d_image img img_x img_y id nT).2 n = img n) := by
  have hm := verifyRows_miss img_x ci cj hcj1 hcj2 (strided (id + 1) (img_y - 1) nT) img
    (strided_nodup (id + 1) (img_y - 1) nT hnT) hci hb hmis
  rw [verify_lane_of_some img img_x img_y id nT (verifyCode img_x ci cj) hm]
  exact ⟨rfl, fun n hn => verifyRows_frame img_x (strided (id + 1) (img_y - 1) nT) img n hn⟩

theorem lane_rows_ne (img_y nT id1 id2 i1 i2 : Nat) (hnT : 1 ≤ nT)
    (h1 : id1 < nT) (h2 : id2 < nT) (hne : id1 ≠ id2)
    (hm1 : i1 ∈ strided (id1 + 1) (img_y - 1) nT)
    (hm2 : i2 ∈ strided (id2 + 1) (img_y - 1) nT) : i1 ≠ i2 := by
  rw [mem_strided_succ_mod id1 (img_y - 1) nT i1 hnT h1] at hm1
  rw [mem_strided_succ_mod id2 (img_y - 1) nT i2 hnT h2] at hm2
  intro he
  subst he
  exact hne (hm1.2.1.symm.trans hm2.2.1)

/-- The foldl underlying verify_all, over an arbitrary list of lane ids. -/
def verify_fold (img_x img_y nT : Nat) (ids : List Nat) (acc : List Int × Buf) :
    List Int × Buf :=
  ids.foldl
    (fun acc id =>
      ((acc.1 ++ [(verify_conv2d_image acc.2 img_x img_y id nT).1],
        (verify_conv2d_image acc.2 img_x img_y id nT).2)))
    acc

theorem verify_all_eq_fold (img : Buf) (img_x img_y nT : Nat) :
    verify_all img img_x img_y nT = verify_fold img_x img_y nT (List.range nT) ([], img) :=
  rfl

theorem verify_fold_ok (img_x img_y nT : Nat) (hnT : 1 ≤ nT) :
    ∀ (ids : List Nat) (codes : List Int) (b : Buf),
      ids.Nodup → (∀ id ∈ ids, id < nT) →
      (∀ id ∈ ids, ∀ i ∈ strided (id + 1) (img_y - 1) nT, ∀ j ∈ rangeFrom 1 (img_x - 1),
        b (i * img_x + j) = verifyExpected i j) →
      (verify_fold img_x img_y nT ids (codes, b)).1 = codes ++ List.replicate ids.length 0 ∧
      (∀ id ∈ ids, ∀ i ∈ strided (id + 1) (img_y - 1) nT, ∀ j ∈ rangeFrom 1 (img_x - 1),
        (verify_fold img_x img_y nT ids (codes, b)).2 (i * img_x + j) = 0) ∧
      (∀ n, (∀ id ∈ ids, ∀ i ∈ strided (id + 1) (img_y - 1) nT, ∀ j, 1 ≤ j →
          j < img_x - 1 → n ≠ i * img_x + j) →
        (verify_fold img_x img_y nT ids (codes, b)).2 n = b n) := by
  intro ids
  induction ids with
  | nil =>
    intro codes b _ _ _
    refine ⟨by simp [verify_fold], ?_, ?_⟩
    · intro id hid
      exact absurd hid (List.not_mem_nil id)
    · intro n _
      rfl
  | cons id ids ih =>
    intro codes b hnd hlt hb
    have hidlt : id < nT := hlt id (List.mem_cons_self id ids)
    obtain ⟨hl1, hl2, hl3⟩ := verifyLane_ok b img_x img_y id nT hnT
      (hb id (List.mem_cons_self id ids))
    have hstep : verify_fold img_x img_y nT (id :: ids) (codes, b) =
        verify_fold img_x img_y nT ids
          (codes ++ [(verify_conv2d_image b img_x img_y id nT).1],
            (verify_conv2d_image b img_x img_y id nT).2) := by
      simp only [verify_fold, List.foldl_cons]
    have hcell_ne : ∀ id2 ∈ ids, ∀ i2 ∈ strided (id2 + 1) (img_y - 1) nT,
        ∀ j2 ∈ rangeFrom 1 (img_x - 1),
        ∀ i ∈ strided (id + 1) (img_y - 1) nT, ∀ j, 1 ≤ j → j < img_x - 1 →
          i2 * img_x + j2 ≠ i * img_x + j := by
      intro id2 hid2 i2 hi2 j2 hj2 i hi j hj1 hj2b he
      have hid2lt : id2 < nT := hlt id2 (List.mem_cons_of_mem id hid2)
      have hidne : id ≠ id2 := by
        intro hee
        rw [hee] at hnd
        exact (List.nodup_cons.mp hnd).1 hid2
      have hj2r := (mem_rangeFrom 1 (img_x - 1) j2).mp hj2
      obtain ⟨hii, _⟩ := linIdx_inj img_x i2 j2 i j (by omega) (by omega) he
      exact lane_rows_ne img_y nT id2 id i2 i hnT hid2lt hidlt
        (fun hee => hidne hee.symm) hi2 hi hii
    have hb2 : ∀ id2 ∈ ids, ∀ i2 ∈ strided (id2 + 1) (img_y - 1) nT,
        ∀ j2 ∈ rangeFrom 1 (img_x - 1),
        (verify_conv2d_image b img_x img_y id nT).2 (i2 * img_x + j2) =
          verifyExpected i2 j2 := by
      intro id2 hid2 i2 hi2 j2 hj2
      rw [hl3 (i2 * img_x + j2) (hcell_ne id2 hid2 i2 hi2 j2 hj2)]
      exact hb id2 (List.mem_cons_of_mem id hid2) i2 hi2 j2 hj2
    obtain ⟨g1, g2, g3⟩ := ih (codes ++ [(verify_conv2d_image b img_x img_y id nT).1])
      (verify_conv2d_image b img_x img_y id nT).2
      (List.nodup_cons.mp hnd).2 (fun id2 hid2 => hlt id2 (List.mem_cons_of_mem id hid2)) hb2
    rw [hstep]
    refine ⟨?_, ?_, ?_⟩
    · rw [g1, hl1]
      simp [List.replicate_succ]
    · intro id2 hid2 i2 hi2 j2 hj2
      rcases List.mem_cons.mp hid2 with hh | hh
      · subst hh
        have hframe : (verify_fold img_x img_y nT ids
            (codes ++ [(verify_conv2d_image b img_x img_y id2 nT).1],
              (verify_conv2d_image b img_x img_y id2 nT).2)).2 (i2 * img_x + j2) =
            (verify_conv2d_image b img_x img_y id2 nT).2 (i2 * img_x + j2) := by
          refine g3 (i2 * img_x + j2) ?_
          intro id3 hid3 i3 hi3 j3 hj31 hj32 he
          have hj2r := (mem_rangeFrom 1 (img_x - 1) j2).mp hj2
          have hid3lt : id3 < nT := hlt id3 (List.mem_cons_of_mem id2 hid3)
          obtain ⟨hii, _⟩ := linIdx_inj img_x i2 j2 i3 j3 (by omega) (by omega) he
          have hidne : id2 ≠ id3 := by
            intro hee
            rw [hee] at hnd
            exact (List.nodup_cons.mp hnd).1 hid3
          exact lane_rows_ne img_y nT id2 id3 i2 i3 hnT hidlt hid3lt hidne hi2 hi3 hii
        rw [hframe]
        exact hl2 i2 hi2 j2 hj2
      · exact g2 id2 hh i2 hi2 j2 hj2
    · intro n hn
      rw [g3 n (fun id2 hid2 => hn id2 (List.mem_cons_of_mem id hid2))]
      exact hl3 n (hn id (List.mem_cons_self id ids))

theorem verify_fold_miss (img_x img_y nT ci cj : Nat) (hnT : 1 ≤ nT) (b0 : Buf)
    (hci1 : 1 ≤ ci) (hci2 : ci < img_y - 1) (hcj1 : 1 ≤ cj) (hcj2 : cj < img_x - 1)
    (hb0 : ∀ i j, 1 ≤ i → i < img_y - 1 → 1 ≤ j → j < img_x - 1 → (i ≠ ci ∨ j ≠ cj) →
      b0 (i * img_x + j) = verifyExpected i j)
    (hmis : b0 (ci * img_x + cj) ≠ verifyExpected ci cj) :
    ∀ (ids : List Nat) (codes : List Int) (b : Buf),
      ids.Nodup → (∀ id ∈ ids, id < nT) →
      (∀ id ∈ ids, ∀ i ∈ strided (id + 1) (img_y - 1) nT, ∀ j ∈ rangeFrom 1 (img_x - 1),
        b (i * img_x + j) = b0 (i * img_x + j)) →
      (verify_fold img_x img_y nT ids (codes, b)).1 =
        codes ++ ids.map (fun id => if (ci - 1) % nT = id
          then ((ci * img_x + cj : Nat) : Int) else 0) := by
  intro ids
  induction ids with
  | nil =>
    intro codes b _ _ _
    simp [verify_fold]
  | cons id ids ih =>
    intro codes b hnd hlt hagree
    have hidlt : id < nT := hlt id (List.mem_cons_self id ids)
    have hstep : verify_fold img_x img_y nT (id :: ids) (codes, b) =
        verify_fold img_x img_y nT ids
          (codes ++ [(verify_conv2d_image b img_x img_y id nT).1],
            (verify_conv2d_image b img_x img_y id nT).2) := by
      simp only [verify_fold, List.foldl_cons]
    -- range facts about the cells of lane id
    have hrowmem : ∀ i, i ∈ strided (id + 1) (img_y - 1) nT ↔
        1 ≤ i ∧ (i - 1) % nT = id ∧ i < img_y - 1 :=
      fun i => mem_strided_succ_mod id (img_y - 1) nT i hnT hidlt
    -- the lane either matches everywhere or contains exactly the corrupted cell
    have hlane : (verify_conv2d_image b img_x img_y id nT).1 =
        (if (ci - 1) % nT = id then ((ci * img_x + cj : Nat) : Int) else 0) ∧
        (∀ n, (∀ i ∈ strided (id + 1) (img_y - 1) nT, ∀ j, 1 ≤ j → j < img_x - 1 →
          n ≠ i * img_x + j) → (verify_conv2d_image b img_x img_y id nT).2 n = b n) := by
      by_cases hl : (ci - 1) % nT = id
      · have hcim : ci ∈ strided (id + 1) (img_y - 1) nT :=
          (hrowmem ci).mpr ⟨hci1, hl, hci2⟩
        have hbm : ∀ i ∈ strided (id + 1) (img_y - 1) nT, ∀ j ∈ rangeFrom 1 (img_x - 1),
            (i ≠ ci ∨ j ≠ cj) → b (i * img_x + j) = verifyExpected i j := by
          intro i hi j hj hor
          have hir := (hrowmem i).mp hi
          have hjr := (mem_rangeFrom 1 (img_x - 1) j).mp hj
          rw [hagree id (List.mem_cons_self id ids) i hi j hj]
          exact hb0 i j hir.1 hir.2.2 hjr.1 hjr.2 hor
        have hmis2 : b (ci * img_x + cj) ≠ verifyExpected ci cj := by
          rw [hagree id (List.mem_cons_self id ids) ci hcim cj
            ((mem_rangeFrom 1 (img_x - 1) cj).mpr ⟨hcj1, hcj2⟩)]
          exact hmis
        obtain ⟨m1, m2⟩ := verifyLane_miss b img_x img_y id nT ci cj hnT hcim hcj1 hcj2
          hbm hmis2
        refine ⟨?_, m2⟩
        rw [m1, if_pos hl]
        unfold verifyCode
        rw [if_neg (by omega)]
      · have hbm : ∀ i ∈ strided (id + 1) (img_y - 1) nT, ∀ j ∈ rangeFrom 1 (img_x - 1),
            b (i * img_x + j) = verifyExpected i j := by
          intro i hi j hj
          have hir := (hrowmem i).mp hi
          have hjr := (mem_rangeFrom 1 (img_x - 1) j).mp hj
          rw [hagree id (List.mem_cons_self id ids) i hi j hj]
          refine hb0 i j hir.1 hir.2.2 hjr.1 hjr.2 (Or.inl ?_)
          intro he
          rw [he] at hir
          exact hl hir.2.1
        obtain ⟨m1, m2, m3⟩ := verifyLane_ok b img_x img_y id nT hnT hbm
        exact ⟨by rw [m1, if_neg hl], m3⟩
    have hagree2 : ∀ id2 ∈ ids, ∀ i2 ∈ strided (id2 + 1) (img_y - 1) nT,
        ∀ j2 ∈ rangeFrom 1 (img_x - 1),
        (verify_conv2d_image b img_x img_y id nT).2 (i2 * img_x + j2) =
          b0 (i2 * img_x + j2) := by
      intro id2 hid2 i2 hi2 j2 hj2
      have hid2lt : id2 < nT := hlt id2 (List.mem_cons_of_mem id hid2)
      have hidne : id ≠ id2 := by
        intro hee
        rw [hee] at hnd
        exact (List.nodup_cons.mp hnd).1 hid2
      have hfr : (verify_conv2d_image b img_x img_y id nT).2 (i2 * img_x + j2) =
          b (i2 * img_x + j2) := by
        refine hlane.2 (i2 * img_x + j2) ?_
        intro i hi j hj1 hj2b he
        have hj2r := (mem_rangeFrom 1 (img_x - 1) j2).mp hj2
        obtain ⟨hii, _⟩ := linIdx_inj img_x i2 j2 i j (by omega) (by omega) he
        exact lane_rows_ne img_y nT id2 id i2 i hnT hid2lt hidlt
          (fun hee => hidne hee.symm) hi2 hi hii
      rw [hfr]
      exact hagree id2 (List.mem_cons_of_mem id hid2) i2 hi2 j2 hj2
    rw [hstep, ih (codes ++ [(verify_conv2d_image b img_x img_y id nT).1])
      (verify_conv2d_image b img_x img_y id nT).2
      (List.nodup_cons.mp hnd).2 (fun id2 hid2 => hlt id2 (List.mem_cons_of_mem id hid2))
      hagree2]
    rw [hlane.1]
    simp

theorem sum_map_ones (k : KBuf) :
    ∀ (n : Nat), (∀ i, i < n → k i = 1) → ((List.range n).map k).sum = n := by
  intro n
  induction n with
  | zero => intro _; rfl
  | succ m ih =>
    intro h
    rw [List.range_succ, List.map_append, List.sum_append,
      ih (fun i hi => h i (by omega))]
    simp [h m (by omega)]

/- Concrete inputs used by witnesses and counterexamples. -/

/-- The image whose value at linear index n is n. -/
def innW : Buf := fun n => (n : Int)

/-- The all-ones kernel. -/
def kOnes : KBuf := fun _ => 1

/-- A zero-initialized output buffer. -/
def outW : Buf := fun _ => 0

/-- The constant image of -1 values. -/
def innNeg : Buf := fun _ => -1

/-- A kernel with weights 2^31, 2^31, 0: weight sum 2^32. -/
def kOverflow : KBuf := fun i => if i = 0 then 2 ^ 31 else if i = 1 then 2 ^ 31 else 0

/-- A 5-column buffer holding the pattern verify_conv2d_image expects. -/
def bExpected : Buf := fun n => verifyExpected (n / 5) (n % 5)

/-- Claim C1: for every input image, every odd-sized kernel with positive
weight sum, and every lane count, the centred-frame convolution
conv2d_parallel and the shifted-frame convolution conv2d_shifted_parallel,
each run over all lane ids 0..numThreads-1, write identical values at
every output coordinate that both variants consider valid, namely columns
[k_x/2, in_x - k_x/2) crossed with rows [k_y/2, in_y - k_y/2). -/
theorem claim_C1 (inn out1 out2 : Buf) (k : KBuf) (in_x in_y kx ky nT x y : Nat)
    (hnT : 1 ≤ nT) (_hkx : kx % 2 = 1) (_hky : ky % 2 = 1)
    (_hw : 0 < convWeight k (kx * ky))
    (_hxin : kx ≤ in_x) (_hyin : ky ≤ in_y)
    (hx1 : kx / 2 ≤ x) (hx2 : x + kx / 2 < in_x)
    (hy1 : ky / 2 ≤ y) (hy2 : y + ky / 2 < in_y) :
    runLanes (fun id => conv2d_parallel inn in_x in_y k kx ky id nT) nT out1 (y * in_x + x) =
    runLanes (fun id => conv2d_shifted_parallel inn in_x in_y k kx ky id nT) nT out2
      (y * in_x + x) := by
  rw [conv2d_parallel_all_value inn out1 k in_x in_y kx ky nT x y hnT hx1 hx2 hy1 hy2,
    conv2d_shifted_all_value inn out2 k in_x in_y kx ky nT x y hnT hx1 hx2 hy1 hy2,
    sum_centered_eq_shifted inn in_x k kx ky x y hx1 hy1]

theorem claim_C1_witness :
    1 ≤ 1 ∧
    runLanes (fun id => conv2d_parallel innW 3 3 kOnes 3 3 id 1) 1 outW (1 * 3 + 1) =
      runLanes (fun id => conv2d_shifted_parallel innW 3 3 kOnes 3 3 id 1) 1
        (fun _ => 5) (1 * 3 + 1) :=
  ⟨by decide,
    claim_C1 innW outW (fun _ => 5) kOnes 3 3 3 3 1 1 1 (by decide) (by decide) (by decide)
      (by decide) (by decide) (by decide) (by decide) (by decide) (by decide) (by decide)⟩

/-- Claim C5: for conv2d_parallel with numThreads >= 1, the coordinate
sets written by two distinct lanes (columns conv2d_cols: lane id advanced
past the left boundary then strided by numThreads; rows conv2d_rows) are
disjoint, and their union over all lanes id < numThreads is exactly the
valid-output domain [k_x/2, in_x - k_x/2) x [k_y/2, in_y - k_y/2). -/
theorem claim_C5 (in_x in_y kx ky nT : Nat) (hnT : 1 ≤ nT)
    (_hkx : kx ≤ in_x) (_hky : ky ≤ in_y) :
    (∀ id1 id2, id1 < nT → id2 < nT → id1 ≠ id2 → ∀ x y,
      ¬((x ∈ conv2d_cols in_x kx nT id1 ∧ y ∈ conv2d_rows in_y ky) ∧
        (x ∈ conv2d_cols in_x kx nT id2 ∧ y ∈ conv2d_rows in_y ky))) ∧
    (∀ x y, (∃ id, id < nT ∧ x ∈ conv2d_cols in_x kx nT id ∧ y ∈ conv2d_rows in_y ky) ↔
      (kx / 2 ≤ x ∧ x < in_x - kx / 2 ∧ ky / 2 ≤ y ∧ y < in_y - ky / 2)) := by
  constructor
  · intro id1 id2 h1 h2 hne x y hc
    obtain ⟨⟨hx1, _⟩, ⟨hx2, _⟩⟩ := hc
    rw [mem_conv2d_cols in_x kx nT id1 x hnT h1] at hx1
    rw [mem_conv2d_cols in_x kx nT id2 x hnT h2] at hx2
    exact hne (hx1.1.symm.trans hx2.1)
  · intro x y
    constructor
    · rintro ⟨id, hid, hcx, hcy⟩
      rw [mem_conv2d_cols in_x kx nT id x hnT hid] at hcx
      rw [mem_conv2d_rows in_y ky y] at hcy
      exact ⟨hcx.2.1, hcx.2.2, hcy.1, hcy.2⟩
    · rintro ⟨h1, h2, h3, h4⟩
      refine ⟨x % nT, Nat.mod_lt x hnT, ?_, (mem_conv2d_rows in_y ky y).mpr ⟨h3, h4⟩⟩
      rw [mem_conv2d_cols in_x kx nT (x % nT) x hnT (Nat.mod_lt x hnT)]
      exact ⟨rfl, h1, h2⟩

theorem claim_C5_witness :
    1 ≤ 2 ∧
    ((∀ id1 id2, id1 < 2 → id2 < 2 → id1 ≠ id2 → ∀ x y,
      ¬((x ∈ conv2d_cols 5 3 2 id1 ∧ y ∈ conv2d_rows 5 3) ∧
        (x ∈ conv2d_cols 5 3 2 id2 ∧ y ∈ conv2d_rows 5 3))) ∧
    (∀ x y, (∃ id, id < 2 ∧ x ∈ conv2d_cols 5 3 2 id ∧ y ∈ conv2d_rows 5 3) ↔
      (3 / 2 ≤ x ∧ x < 5 - 3 / 2 ∧ 3 / 2 ≤ y ∧ y < 5 - 3 / 2))) :=
  ⟨by decide, claim_C5 5 5 3 3 2 (by decide) (by decide) (by decide)⟩

/-- Claim C6: for every convolution variant, every input and every lane
count, output elements outside the variant's valid interior (a border of
k_x/2 columns and k_y/2 rows for the general variants, a 1-pixel border
for the 3x3 variants) are never written by the kernels run over all
lanes, so their prior value is preserved. -/
theorem claim_C6 (inn out : Buf) (k : KBuf) (in_x in_y kx ky nT x y : Nat)
    (hnT : 1 ≤ nT) (hx : x < in_x) :
    (¬(kx / 2 ≤ x ∧ x + kx / 2 < in_x ∧ ky / 2 ≤ y ∧ y + ky / 2 < in_y) →
      runLanes (fun id => conv2d_parallel inn in_x in_y k kx ky id nT) nT out
        (y * in_x + x) = out (y * in_x + x) ∧
      runLanes (fun id => conv2d_shifted_parallel inn in_x in_y k kx ky id nT) nT out
        (y * in_x + x) = out (y * in_x + x)) ∧
    (¬(1 ≤ x ∧ x + 1 < in_x ∧ 1 ≤ y ∧ y + 1 < in_y) →
      runLanes (fun id => conv2d_3x3_unrolled_parallel inn in_x in_y k id nT) nT out
        (y * in_x + x) = out (y * in_x + x) ∧
      runLanes (fun id => conv2d_3x3_shifted_unrolled_parallel inn in_x in_y k id nT) nT out
        (y * in_x + x) = out (y * in_x + x)) := by
  constructor
  · intro hout
    constructor
    · refine runLanes_preserve _ nT out (y * in_x + x) ?_
      intro id hid o
      have hidlt : id < nT := List.mem_range.mp hid
      unfold conv2d_parallel
      apply convLoop_preserve
      intro i hi j hj heq
      rw [mem_conv2d_cols in_x kx nT id i hnT hidlt] at hi
      rw [mem_conv2d_rows in_y ky j] at hj
      obtain ⟨hjy, hix⟩ := linIdx_inj in_x j i y x (by omega) hx heq
      exact hout (by omega)
    · refine runLanes_preserve _ nT out (y * in_x + x) ?_
      intro id hid o
      have hidlt : id < nT := List.mem_range.mp hid
      unfold conv2d_shifted_parallel
      apply convLoop_preserve
      intro i hi j hj heq
      rw [conv2d_shifted_cols, mem_strided_mod id (in_x - 2 * (kx / 2)) nT i hnT hidlt] at hi
      rw [conv2d_shifted_rows, List.mem_range] at hj
      obtain ⟨hjy, hix⟩ := linIdx_inj in_x (j + ky / 2) (i + kx / 2) y x (by omega) hx heq
      exact hout (by omega)
  · intro hout
    constructor
    · refine runLanes_preserve _ nT out (y * in_x + x) ?_
      intro id hid o
      unfold conv2d_3x3_unrolled_parallel
      apply convLoop_preserve
      intro i hi j hj heq
      have hir := (mem_rangeFrom (blockStartClamped in_x nT id) (blockEndClamped in_x nT id)
        i).mp hi
      have hsp := blockStartClamped_pos in_x nT id
      have hep := blockEndClamped_le in_x nT id
      rw [mem_conv3x3_rows in_y j] at hj
      obtain ⟨hjy, hix⟩ := linIdx_inj in_x j i y x (by omega) hx heq
      exact hout (by omega)
    · refine runLanes_preserve _ nT out (y * in_x + x) ?_
      intro id hid o
      have hidlt : id < nT := List.mem_range.mp hid
      unfold conv2d_3x3_shifted_unrolled_parallel
      apply convLoop_preserve
      intro i hi j hj heq
      rw [mem_strided_mod id (in_x - 2) nT i hnT hidlt] at hi
      rw [List.mem_range] at hj
      obtain ⟨hjy, hix⟩ := linIdx_inj in_x (j + 1) (i + 1) y x (by omega) hx heq
      exact hout (by omega)

theorem claim_C6_witness :
    1 ≤ 2 ∧ (0 : Nat) < 5 ∧
    runLanes (fun id => conv2d_parallel innW 5 5 kOnes 3 3 id 2) 2 outW (0 * 5 + 0) =
      outW (0 * 5 + 0) ∧
    runLanes (fun id => conv2d_3x3_unrolled_parallel innW 5 5 kOnes id 2) 2 outW
      (0 * 5 + 0) = outW (0 * 5 + 0) :=
  ⟨by decide, by decide,
    ((claim_C6 innW outW kOnes 5 5 3 3 2 0 0 (by decide) (by decide)).1 (by decide)).1,
    ((claim_C6 innW outW kOnes 5 5 3 3 2 0 0 (by decide) (by decide)).2 (by decide)).1⟩

/-- Claim C7 (amended): for every input image and all-ones kernel of odd
size k_x x k_y, at every valid output coordinate whose window sum is a
nonnegative value below 2^31 (in particular for int32-representable
nonnegative data), the stored value equals the truncating-integer average
of the window: the window sum divided by k_x*k_y.  (As stated over all
inputs the claim fails: the division is performed in unsigned 32-bit
arithmetic, see the counterexample with a negative window sum.) -/
theorem claim_C7_amended (inn out : Buf) (k : KBuf) (in_x in_y kx ky nT x y : Nat)
    (hnT : 1 ≤ nT) (_hkx : kx % 2 = 1) (_hky : ky % 2 = 1)
    (hones : ∀ idx, idx < kx * ky → k idx = 1)
    (hsz32 : kx * ky < 2 ^ 32)
    (hx1 : kx / 2 ≤ x) (hx2 : x + kx / 2 < in_x)
    (hy1 : ky / 2 ≤ y) (hy2 : y + ky / 2 < in_y)
    (hs0 : 0 ≤ conv2d_sum_centered inn in_x k kx ky x y)
    (hs1 : conv2d_sum_centered inn in_x k kx ky x y < 2 ^ 31) :
    runLanes (fun id => conv2d_parallel inn in_x in_y k kx ky id nT) nT out (y * in_x + x) =
      conv2d_sum_centered inn in_x k kx ky x y / ((kx * ky : Nat) : Int) := by
  rw [conv2d_parallel_all_value inn out k in_x in_y kx ky nT x y hnT hx1 hx2 hy1 hy2]
  have hw : convWeight k (kx * ky) = kx * ky := by
    rw [convWeight_eq, sum_map_ones k (kx * ky) hones, Nat.mod_eq_of_lt hsz32]
  rw [hw]
  unfold storeVal
  have hs2 : conv2d_sum_centered inn in_x k kx ky x y < 2 ^ 32 := by
    have : (2 ^ 31 : Int) < 2 ^ 32 := by norm_num
    omega
  rw [bits32_nonneg (conv2d_sum_centered inn in_x k kx ky x y) hs0 hs2]
  have hq : (conv2d_sum_centered inn in_x k kx ky x y).toNat / (kx * ky) < 2 ^ 31 := by
    have h1 := Nat.div_le_self (conv2d_sum_centered inn in_x k kx ky x y).toNat (kx * ky)
    omega
  rw [int32ofBits_small ((conv2d_sum_centered inn in_x k kx ky x y).toNat / (kx * ky)) hq,
    Int.ofNat_ediv, Int.toNat_of_nonneg hs0]

/-- Claim C7 counterexample: a 3x3 image of -1 values convolved by
conv2d_parallel with the all-ones 3x3 kernel stores 477218587 at the only
valid coordinate (1,1): the division is unsigned, while the truncating
integer average of the window is -9 / 9 = -1. -/
theorem claim_C7_counterexample :
    runLanes (fun id => conv2d_parallel innNeg 3 3 kOnes 3 3 id 1) 1 outW (1 * 3 + 1) =
      477218587 ∧
    Int.tdiv (conv2d_sum_centered innNeg 3 kOnes 3 3 1 1) ((3 * 3 : Nat) : Int) = -1 ∧
    (477218587 : Int) ≠ -1 := by
  refine ⟨by decide, by decide, by decide⟩

theorem claim_C7_witness :
    1 ≤ 1 ∧ (0 : Int) ≤ conv2d_sum_centered innW 3 kOnes 3 3 1 1 ∧
    runLanes (fun id => conv2d_parallel innW 3 3 kOnes 3 3 id 1) 1 outW (1 * 3 + 1) =
      conv2d_sum_centered innW 3 kOnes 3 3 1 1 / ((3 * 3 : Nat) : Int) :=
  ⟨by decide, by decide,
    claim_C7_amended innW outW kOnes 3 3 3 3 1 1 1 (by decide) (by decide) (by decide)
      (by decide) (by decide) (by decide) (by decide) (by decide) (by decide) (by decide)
      (by decide)⟩

/-- Claim C2, examined at the failing input in_x = 5, in_y = 3,
numThreads = 2, all-ones 3x3 kernel, image value n at linear index n,
zero-initialized outputs: the block-partitioned variant leaves column 2
unwritten (its end bound adds min(id, rem) where the remainder
distribution needs min(id+1, rem)), so out[7] stays 0, while the strided
shifted variant stores the window average 7 there; the claimed equality
of the two output arrays fails. -/
theorem claim_C2_eval :
    runLanes (fun id => conv2d_3x3_unrolled_parallel innW 5 3 kOnes id 2) 2 outW 7 = 0 ∧
    runLanes (fun id => conv2d_3x3_shifted_unrolled_parallel innW 5 3 kOnes id 2) 2 outW 7
      = 7 := by
  refine ⟨by decide, by decide⟩

/-- Claim C3, examined at in_x = 5, numThreads = 2: the pre-clamp lane
ranges are [0, 2) and [3, 5), whose sizes sum to 4, not in_x = 5, and the
interior column 2 lies in no lane, neither before nor after clamping to
[1, 4): the block partition has a gap of in_x mod numThreads columns. -/
theorem claim_C3_eval :
    blockStart 5 2 0 = 0 ∧ blockEnd 5 2 0 = 2 ∧
    blockStart 5 2 1 = 3 ∧ blockEnd 5 2 1 = 5 ∧
    (blockEnd 5 2 0 - blockStart 5 2 0) + (blockEnd 5 2 1 - blockStart 5 2 1) = 4 ∧
    (∀ id, id < 2 → ¬(blockStart 5 2 id ≤ 2 ∧ 2 < blockEnd 5 2 id)) ∧
    (∀ id, id < 2 → ¬(blockStartClamped 5 2 id ≤ 2 ∧ 2 < blockEndClamped 5 2 id)) := by
  decide

/-- Claim C4 counterexample: on a 5x3 image with one lane, init followed
by verify on the unmodified buffer returns 8 (the linear index of the
first mismatch at row 1, column 3), not 0: verify checks the smoothed
pattern (column contribution ((j mod 4)/2)+1), not the init pattern
(column contribution j mod 4). -/
theorem claim_C4_counterexample :
    (verify_all (init_all (fun _ => 0) 5 3 1) 5 3 1).1 = [8] := by
  decide

/-- Claim C4 (amended): for a buffer whose checked interior holds the
pattern verify_conv2d_image expects (verifyExpected), running verify over
all lanes returns 0 from every lane and zeroes every checked interior
element; corrupting exactly one interior element and then running verify
over all lanes makes the lane that scans the corrupted row return that
element's exact linear index (never 0, so the -1 escape for linear index
0 stays unused) while every other lane returns 0.  (As stated over an
init-filled buffer the claim fails, see the counterexample.) -/
theorem claim_C4_amended (b : Buf) (img_x img_y nT : Nat) (hnT : 1 ≤ nT)
    (hb : ∀ i, i < img_y → ∀ j, j < img_x →
      ((1 ≤ i ∧ i < img_y - 1 ∧ 1 ≤ j ∧ j < img_x - 1) →
        b (i * img_x + j) = verifyExpected i j)) :
    ((verify_all b img_x img_y nT).1 = List.replicate nT 0 ∧
      (∀ i j, 1 ≤ i → i < img_y - 1 → 1 ≤ j → j < img_x - 1 →
        (verify_all b img_x img_y nT).2 (i * img_x + j) = 0)) ∧
    (∀ ci cj v, 1 ≤ ci → ci < img_y - 1 → 1 ≤ cj → cj < img_x - 1 →
      v ≠ verifyExpected ci cj →
      (verify_all (writeBuf b (ci * img_x + cj) v) img_x img_y nT).1 =
        (List.range nT).map (fun id => if (ci - 1) % nT = id
          then ((ci * img_x + cj : Nat) : Int) else 0)) := by
  have hbm : ∀ id ∈ List.range nT, ∀ i ∈ strided (id + 1) (img_y - 1) nT,
      ∀ j ∈ rangeFrom 1 (img_x - 1), b (i * img_x + j) = verifyExpected i j := by
    intro id hid i hi j hj
    have hidlt : id < nT := List.mem_range.mp hid
    have hir := (mem_strided_succ_mod id (img_y - 1) nT i hnT hidlt).mp hi
    have hjr := (mem_rangeFrom 1 (img_x - 1) j).mp hj
    exact hb i (by omega) j (by omega) ⟨hir.1, hir.2.2, hjr.1, hjr.2⟩
  constructor
  · obtain ⟨f1, f2, _⟩ := verify_fold_ok img_x img_y nT hnT (List.range nT) [] b
      (List.nodup_range nT) (fun id hid => List.mem_range.mp hid) hbm
    rw [verify_all_eq_fold]
    constructor
    · rw [f1, List.nil_append, List.length_range]
    · intro i j h1 h2 h3 h4
      have hllt : (i - 1) % nT < nT := Nat.mod_lt (i - 1) hnT
      refine f2 ((i - 1) % nT) (List.mem_range.mpr hllt) i ?_ j
        ((mem_rangeFrom 1 (img_x - 1) j).mpr ⟨h3, h4⟩)
      exact (mem_strided_succ_mod ((i - 1) % nT) (img_y - 1) nT i hnT hllt).mpr
        ⟨h1, rfl, h2⟩
  · intro ci cj v hci1 hci2 hcj1 hcj2 hv
    have hb0 : ∀ i j, 1 ≤ i → i < img_y - 1 → 1 ≤ j → j < img_x - 1 → (i ≠ ci ∨ j ≠ cj) →
        writeBuf b (ci * img_x + cj) v (i * img_x + j) = verifyExpected i j := by
      intro i j h1 h2 h3 h4 hor
      have hne : i * img_x + j ≠ ci * img_x + cj := by
        intro he
        obtain ⟨hii, hjj⟩ := linIdx_inj img_x i j ci cj (by omega) (by omega) he
        rcases hor with h | h
        · exact h hii
        · exact h hjj
      rw [writeBuf_ne b (ci * img_x + cj) v (i * img_x + j) hne]
      exact hb i (by omega) j (by omega) ⟨h1, h2, h3, h4⟩
    have hmis : writeBuf b (ci * img_x + cj) v (ci * img_x + cj) ≠ verifyExpected ci cj := by
      rw [writeBuf_self b (ci * img_x + cj) v]
      exact hv
    have hagree : ∀ id ∈ List.range nT, ∀ i ∈ strided (id + 1) (img_y - 1) nT,
        ∀ j ∈ rangeFrom 1 (img_x - 1),
        writeBuf b (ci * img_x + cj) v (i * img_x + j) =
          writeBuf b (ci * img_x + cj) v (i * img_x + j) := fun _ _ _ _ _ _ => rfl
    have hm := verify_fold_miss img_x img_y nT ci cj hnT (writeBuf b (ci * img_x + cj) v)
      hci1 hci2 hcj1 hcj2 hb0 hmis (List.range nT) [] (writeBuf b (ci * img_x + cj) v)
      (List.nodup_range nT) (fun id hid => List.mem_range.mp hid) hagree
    rw [verify_all_eq_fold, hm, List.nil_append]

theorem claim_C4_witness :
    1 ≤ 1 ∧
    (verify_all bExpected 5 3 1).1 = List.replicate 1 0 ∧
    (verify_all (writeBuf bExpected (1 * 5 + 1) 99) 5 3 1).1 =
      (List.range 1).map (fun id => if (1 - 1) % 1 = id then ((1 * 5 + 1 : Nat) : Int)
        else 0) :=
  ⟨by decide,
    (claim_C4_amended bExpected 5 3 1 (by decide) (by decide)).1.1,
    (claim_C4_amended bExpected 5 3 1 (by decide) (by decide)).2 1 1 99 (by decide)
      (by decide) (by decide) (by decide) (by decide)⟩

/-- Claim C8: verify_conv2d_image returns 0 when every element the lane
scans matches the expected pattern; when the lane's scan order (rows
id+1, id+1+numThreads, ... each over columns 1 .. img_x-2) meets a first
mismatching element, it returns that element's linear index i*img_x + j,
which is always positive, so the -1 branch for a mismatch with i + j == 0
is unreachable. -/
theorem claim_C8 (img : Buf) (img_x img_y id nT : Nat) (hnT : 1 ≤ nT) :
    ((∀ i ∈ strided (id + 1) (img_y - 1) nT, ∀ j ∈ rangeFrom 1 (img_x - 1),
        img (i * img_x + j) = verifyExpected i j) →
      (verify_conv2d_image img img_x img_y id nT).1 = 0) ∧
    (∀ pre ci post cj, strided (id + 1) (img_y - 1) nT = pre ++ ci :: post →
      1 ≤ cj → cj < img_x - 1 →
      (∀ i ∈ pre, ∀ j ∈ rangeFrom 1 (img_x - 1), img (i * img_x + j) = verifyExpected i j) →
      (∀ j, 1 ≤ j → j < cj → img (ci * img_x + j) = verifyExpected ci j) →
      img (ci * img_x + cj) ≠ verifyExpected ci cj →
      (verify_conv2d_image img img_x img_y id nT).1 = ((ci * img_x + cj : Nat) : Int) ∧
        0 < ci * img_x + cj) := by
  constructor
  · intro hb
    exact (verifyLane_ok img img_x img_y id nT hnT hb).1
  · intro pre ci post cj hsplit hcj1 hcj2 hpre hbefore hmis
    have hci : ci ∈ strided (id + 1) (img_y - 1) nT := by
      rw [hsplit]
      exact List.mem_append.mpr (Or.inr (List.mem_cons_self ci post))
    obtain ⟨t, hct, _⟩ := (mem_strided (id + 1) (img_y - 1) nT ci hnT).mp hci
    have hci1 : 1 ≤ ci := by omega
    have hnd : (pre ++ ci :: post).Nodup := by
      rw [← hsplit]
      exact strided_nodup (id + 1) (img_y - 1) nT hnT
    have hrm := verifyRows_first img_x ci cj hcj1 hcj2 post pre img hnd hpre hbefore hmis
    rw [verify_lane_of_some img img_x img_y id nT (verifyCode img_x ci cj)
      (by rw [hsplit]; exact hrm)]
    refine ⟨?_, by omega⟩
    show verifyCode img_x ci cj = ((ci * img_x + cj : Nat) : Int)
    unfold verifyCode
    rw [if_neg (by omega)]

theorem claim_C8_witness :
    1 ≤ 1 ∧
    ((verify_conv2d_image (fun _ => 99) 4 4 0 1).1 = ((1 * 4 + 1 : Nat) : Int) ∧
      0 < 1 * 4 + 1) :=
  ⟨by decide,
    (claim_C8 (fun _ => 99) 4 4 0 1 (by decide)).2 [] 1 [2] 1 (by decide) (by decide)
      (by decide)
      (fun i hi => absurd hi (List.not_mem_nil i))
      (fun j h1 h2 => absurd (Nat.lt_of_le_of_lt h1 h2) (Nat.lt_irrefl 1))
      (by decide)⟩

/-- Claim C9 (amended): for every kernel whose weights sum to a positive
value below 2^32, the divisor computed by the kernels (the uint32 weight
accumulator convWeight, the sole divisor of every division they execute)
equals that sum and is nonzero; the kernels contain no guard, so this is
a caller precondition.  (As stated, without the 2^32 bound, the claim
fails: the accumulator wraps, see the counterexample.) -/
theorem claim_C9_amended (k : KBuf) (kx ky : Nat)
    (hpos : 0 < ((List.range (kx * ky)).map k).sum)
    (hlt : ((List.range (kx * ky)).map k).sum < 2 ^ 32) :
    convWeight k (kx * ky) = ((List.range (kx * ky)).map k).sum ∧
      0 < convWeight k (kx * ky) := by
  have h := convWeight_eq k (kx * ky)
  rw [Nat.mod_eq_of_lt hlt] at h
  exact ⟨h, by omega⟩

/-- Claim C9 counterexample: the kernel with weights 2^31, 2^31, 0 has a
positive weight sum 2^32, yet the uint32 weight accumulator used as the
divisor by every variant computes 0, so the division is executed with a
zero divisor despite the positive sum. -/
theorem claim_C9_counterexample :
    0 < ((List.range 3).map kOverflow).sum ∧ convWeight kOverflow 3 = 0 := by
  refine ⟨by decide, by decide⟩

theorem claim_C9_witness :
    0 < ((List.range (3 * 3)).map kOnes).sum ∧
    (convWeight kOnes (3 * 3) = ((List.range (3 * 3)).map kOnes).sum ∧
      0 < convWeight kOnes (3 * 3)) :=
  ⟨by decide, claim_C9_amended kOnes 3 3 (by decide) (by decide)⟩

/-- Claim C10: in all four convolution variants the stored result
sum / weight is computed with the signed 32-bit weighted sum converted to
unsigned 32-bit before the division (weight being an unsigned 32-bit
value): at every written output element whose signed 32-bit weighted sum
s is negative, the stored value equals the signed reinterpretation of
(s + 2^32) / weight computed in unsigned arithmetic. -/
theorem claim_C10 (inn out : Buf) (k : KBuf) (in_x in_y kx ky nT : Nat) (hnT : 1 ≤ nT) :
    (∀ x y, kx / 2 ≤ x → x + kx / 2 < in_x → ky / 2 ≤ y → y + ky / 2 < in_y →
      asInt32 (conv2d_sum_centered inn in_x k kx ky x y) < 0 →
      runLanes (fun id => conv2d_parallel inn in_x in_y k kx ky id nT) nT out
        (y * in_x + x) =
        int32ofBits ((asInt32 (conv2d_sum_centered inn in_x k kx ky x y) + 2 ^ 32).toNat /
          convWeight k (kx * ky))) ∧
    (∀ x y, kx / 2 ≤ x → x + kx / 2 < in_x → ky / 2 ≤ y → y + ky / 2 < in_y →
      asInt32 (conv2d_sum_shifted inn in_x k kx ky (x - kx / 2) (y - ky / 2)) < 0 →
      runLanes (fun id => conv2d_shifted_parallel inn in_x in_y k kx ky id nT) nT out
        (y * in_x + x) =
        int32ofBits
          ((asInt32 (conv2d_sum_shifted inn in_x k kx ky (x - kx / 2) (y - ky / 2)) +
            2 ^ 32).toNat / convWeight k (kx * ky))) ∧
    (∀ id0 x y, id0 < nT →
      x ∈ rangeFrom (blockStartClamped in_x nT id0) (blockEndClamped in_x nT id0) →
      y ∈ conv3x3_rows in_y →
      asInt32 (conv2d_3x3_sum inn in_x k x y) < 0 →
      runLanes (fun id => conv2d_3x3_unrolled_parallel inn in_x in_y k id nT) nT out
        (y * in_x + x) =
        int32ofBits ((asInt32 (conv2d_3x3_sum inn in_x k x y) + 2 ^ 32).toNat /
          convWeight k 9)) ∧
    (∀ x y, x < in_x - 2 → y < in_y - 2 →
      asInt32 (conv2d_3x3_shifted_sum inn in_x k x y) < 0 →
      runLanes (fun id => conv2d_3x3_shifted_unrolled_parallel inn in_x in_y k id nT) nT out
        ((y + 1) * in_x + (x + 1)) =
        int32ofBits ((asInt32 (conv2d_3x3_shifted_sum inn in_x k x y) + 2 ^ 32).toNat /
          convWeight k 9)) := by
  refine ⟨?_, ?_, ?_, ?_⟩
  · intro x y hx1 hx2 hy1 hy2 hneg
    rw [conv2d_parallel_all_value inn out k in_x in_y kx ky nT x y hnT hx1 hx2 hy1 hy2]
    unfold storeVal
    rw [asInt32_neg_bits (conv2d_sum_centered inn in_x k kx ky x y) hneg]
  · intro x y hx1 hx2 hy1 hy2 hneg
    rw [conv2d_shifted_all_value inn out k in_x in_y kx ky nT x y hnT hx1 hx2 hy1 hy2]
    unfold storeVal
    rw [asInt32_neg_bits (conv2d_sum_shifted inn in_x k kx ky (x - kx / 2) (y - ky / 2)) hneg]
  · intro id0 x y hid0 hx hy hneg
    rw [conv3x3_block_all_value inn out k in_x in_y nT id0 x y hnT hid0 hx hy]
    unfold storeVal
    rw [asInt32_neg_bits (conv2d_3x3_sum inn in_x k x y) hneg]
  · intro x y hx hy hneg
    rw [conv3x3_shifted_all_value inn out k in_x in_y nT x y hnT hx hy]
    unfold storeVal
    rw [asInt32_neg_bits (conv2d_3x3_shifted_sum inn in_x k x y) hneg]

theorem claim_C10_witness :
    1 ≤ 1 ∧ asInt32 (conv2d_sum_centered innNeg 3 kOnes 3 3 1 1) < 0 ∧
    runLanes (fun id => conv2d_parallel innNeg 3 3 kOnes 3 3 id 1) 1 outW (1 * 3 + 1) =
      int32ofBits ((asInt32 (conv2d_sum_centered innNeg 3 kOnes 3 3 1 1) + 2 ^ 32).toNat /
        convWeight kOnes (3 * 3)) :=
  ⟨by decide, by decide,
    (claim_C10 innNeg outW kOnes 3 3 3 3 1 (by decide)).1 1 1 (by decide) (by decide)
      (by decide) (by decide) (by decide)⟩

end Convolution

